import Mathlib

/-!
Verification of the TIFF-to-JPEG conversion pipeline (`src/tif2jpeg.py`).

The development shallowly embeds the two functions of the source file:

* `save_frame_shared(img, i, output_folder, lock)` — one conversion job:
  build the output filename, then under the lock seek the shared image to
  frame `i` and decode it to an RGB frame, then (outside the lock) save the
  frame as a JPEG file;
* `tiff2jpeg(tiff_path, output_folder)` — the pipeline: create the output
  directory, open the TIFF once, read `n_frames`, submit one job per frame
  to a thread pool, run the progress-bar loop, wait for all jobs on pool
  shutdown, and close the image.

Concurrency is embedded as a labelled small-step transition system
(`Step` / `Reach`): each job is a small program whose atomic actions may
interleave arbitrarily with the other jobs and the main thread, subject to
the lock discipline of the `with lock:` block. Pure fragments (filename
formatting, colour conversion, encoding) are embedded as Lean functions.
-/

/-- Decoded in-memory pixel buffer for one page (a PIL image object). -/
structure PageFrame where
  mode : String
  pix : List Nat
deriving DecidableEq

/-- Model of `img.convert("RGB")`: a pure function of the decoded frame
producing a 3-channel truecolor frame. -/
def convertRGB (f : PageFrame) : PageFrame :=
  { mode := "RGB", pix := f.pix }

/-- Model of `frame.save(_, "JPEG")`'s payload: the JPEG bytes written for a
frame, a deterministic pure function of the frame. -/
def jpegEncode (f : PageFrame) : List Nat :=
  f.pix.length :: f.pix

/-- The multi-page TIFF container: a sequence of pages; `none` stands for a
page whose data is corrupt, so that seeking/decoding it raises. -/
structure TiffImage where
  pages : List (Option PageFrame)
deriving DecidableEq

/-- Model of `img.n_frames`. -/
def TiffImage.n_frames (img : TiffImage) : Nat :=
  img.pages.length

/-- Decimal digit as a character. -/
def digitChar : Nat → Char
  | 0 => '0' | 1 => '1' | 2 => '2' | 3 => '3' | 4 => '4'
  | 5 => '5' | 6 => '6' | 7 => '7' | 8 => '8' | 9 => '9'
  | _ => '?'

/-- Numeric value of a decimal digit character. -/
def digitVal (c : Char) : Nat :=
  c.toNat - 48

/-- Decimal representation of a natural number, most significant digit
first (the digits of Python's `str(n)` / `"%d" % n`). -/
def decimalString (n : Nat) : List Char :=
  if n = 0 then ['0'] else ((Nat.digits 10 n).reverse.map digitChar)

/-- Model of Python's `f"{i:05d}"`: the decimal representation left-padded
with `'0'` to a minimum width of 5. -/
def pyFormat05 (i : Nat) : String :=
  ⟨List.replicate (5 - (decimalString i).length) '0' ++ decimalString i⟩

/-- Model of `os.path.join` for the two-argument form used in the source. -/
def osPathJoin (a b : String) : String :=
  if b.data.head? = some '/' then b
  else if a.data = [] then b
  else if a.data.getLast? = some '/' then a ++ b
  else a ++ "/" ++ b

/-- The output path of frame `i`: `os.path.join(output_folder, f"{i:05d}.jpg")`
(line 17 of the source). -/
def jpegFilename (output_folder : String) (i : Nat) : String :=
  osPathJoin output_folder (pyFormat05 i ++ ".jpg")

/-- Read a digit string back into a number (little-endian after reversal). -/
def parseDigits (l : List Char) : Nat :=
  Nat.ofDigits 10 ((l.map digitVal).reverse)

lemma digitVal_digitChar {d : Nat} (hd : d < 10) : digitVal (digitChar d) = d := by
  interval_cases d <;> rfl

lemma ofDigits_replicate_zero (k : Nat) : Nat.ofDigits 10 (List.replicate k 0) = 0 := by
  induction k with
  | zero => simp
  | succ k ih => simp [List.replicate_succ, Nat.ofDigits_cons, ih]

lemma parseDigits_replicate_zero_append (k : Nat) (l : List Char) :
    parseDigits (List.replicate k '0' ++ l) = parseDigits l := by
  unfold parseDigits
  rw [List.map_append, List.reverse_append, Nat.ofDigits_append]
  have hmap : (List.replicate k '0').map digitVal = List.replicate k 0 := by
    rw [List.map_replicate]; rfl
  rw [hmap, List.reverse_replicate, ofDigits_replicate_zero]
  simp

lemma parseDigits_decimalString (n : Nat) : parseDigits (decimalString n) = n := by
  unfold decimalString
  by_cases h : n = 0
  · subst h; simp [parseDigits, digitVal, Nat.ofDigits]
  · simp only [h, if_false]
    unfold parseDigits
    have hmap : ((Nat.digits 10 n).reverse.map digitChar).map digitVal
        = (Nat.digits 10 n).reverse := by
      rw [List.map_map]
      conv_rhs => rw [← List.map_id ((Nat.digits 10 n).reverse)]
      apply List.map_congr_left
      intro d hd
      have : d ∈ Nat.digits 10 n := List.mem_reverse.mp hd
      exact digitVal_digitChar (Nat.digits_lt_base (by norm_num) this)
    rw [hmap, List.reverse_reverse, Nat.ofDigits_digits]

lemma pyFormat05_injective : Function.Injective pyFormat05 := by
  intro i j h
  have hdata : List.replicate (5 - (decimalString i).length) '0' ++ decimalString i
      = List.replicate (5 - (decimalString j).length) '0' ++ decimalString j := by
    have := congrArg String.data h
    simpa [pyFormat05] using this
  have := congrArg parseDigits hdata
  rwa [parseDigits_replicate_zero_append, parseDigits_replicate_zero_append,
    parseDigits_decimalString, parseDigits_decimalString] at this

lemma decimalString_head_digit (n : Nat) :
    ∃ d, d < 10 ∧ (decimalString n).head? = some (digitChar d) := by
  unfold decimalString
  by_cases h : n = 0
  · exact ⟨0, by norm_num, by simp [h]; rfl⟩
  · simp only [h, if_false]
    have hne : Nat.digits 10 n ≠ [] := Nat.digits_ne_nil_iff_ne_zero.mpr h
    have hrev : (Nat.digits 10 n).reverse ≠ [] := by simpa using hne
    obtain ⟨d, t, ht⟩ := List.exists_cons_of_ne_nil hrev
    refine ⟨d, ?_, ?_⟩
    · have : d ∈ (Nat.digits 10 n).reverse := by rw [ht]; exact List.mem_cons_self _ _
      exact Nat.digits_lt_base (by norm_num) (List.mem_reverse.mp this)
    · rw [ht]; simp

lemma digitChar_ne_slash (d : Nat) : digitChar d ≠ '/' := by
  unfold digitChar
  split <;> decide

lemma pyFormat05_head_not_slash (i : Nat) :
    (pyFormat05 i ++ ".jpg").data.head? ≠ some '/' := by
  obtain ⟨d, hd, hhead⟩ := decimalString_head_digit i
  have hdata : (pyFormat05 i ++ ".jpg").data
      = (List.replicate (5 - (decimalString i).length) '0' ++ decimalString i)
        ++ ".jpg".data := by
    simp [pyFormat05, String.data_append]
  rw [hdata]
  rcases Nat.eq_zero_or_pos (5 - (decimalString i).length) with hk | hk
  · rw [hk]
    have hne : decimalString i ≠ [] := by
      intro hnil; rw [hnil] at hhead; simp at hhead
    obtain ⟨c, t, ht⟩ := List.exists_cons_of_ne_nil hne
    rw [ht] at hhead ⊢
    simp only [List.head?_cons, Option.some.injEq] at hhead
    simp only [List.replicate, List.nil_append, List.cons_append, List.head?_cons,
      Option.some.injEq]
    rw [hhead]
    exact fun hc => digitChar_ne_slash d (Option.some.inj hc)
  · obtain ⟨k, hk'⟩ := Nat.exists_eq_succ_of_ne_zero (Nat.pos_iff_ne_zero.mp hk)
    rw [hk', List.replicate_succ]
    simp

lemma jpegFilename_injective (dir : String) : Function.Injective (jpegFilename dir) := by
  intro i j h
  unfold jpegFilename osPathJoin at h
  rw [if_neg (pyFormat05_head_not_slash i), if_neg (pyFormat05_head_not_slash j)] at h
  apply pyFormat05_injective
  by_cases hnil : dir.data = []
  · rw [if_pos hnil, if_pos hnil] at h
    have hd := congrArg String.data h
    simp only [String.data_append] at hd
    exact String.ext (List.append_cancel_right hd)
  · rw [if_neg hnil, if_neg hnil] at h
    by_cases hsl : dir.data.getLast? = some '/'
    · rw [if_pos hsl, if_pos hsl] at h
      have hd := congrArg String.data h
      simp only [String.data_append] at hd
      exact String.ext (List.append_cancel_right (List.append_cancel_left hd))
    · rw [if_neg hsl, if_neg hsl] at h
      have hd := congrArg String.data h
      simp only [String.data_append] at hd
      exact String.ext (List.append_cancel_right (List.append_cancel_left hd))

/-- Program counter of one conversion job (`save_frame_shared`).
The job's atomic actions, in order: acquire the lock (entering the
`with lock:` block), `img.seek(i)`, `frame = img.convert("RGB")`, release
the lock (leaving the block, also run when seek/decode raises), and
`frame.save(jpeg_filename, "JPEG")`. -/
inductive JobPC where
  | ready
  | locked
  | seeked
  | decoded (f : PageFrame)
  | releasedOk (f : PageFrame)
  | erring
  | doneOk
  | doneErr
deriving DecidableEq

/-- A job is inside the exclusive section (the `with lock:` block). -/
def JobPC.inExcl : JobPC → Bool
  | .locked | .seeked | .decoded _ | .erring => true
  | _ => false

/-- The job's thread has finished (its future is completed). -/
def JobPC.terminal : JobPC → Bool
  | .doneOk | .doneErr => true
  | _ => false

/-- Program counter of the main thread of `tiff2jpeg`: `os.makedirs`,
`Image.open` (with its failure exit), the submission loop, the
`for _ in futures: pbar.update(1)` loop, the implicit `executor.shutdown`
on leaving the `ThreadPoolExecutor` block, and closing the image on
leaving the `Image.open` block. -/
inductive MainPC where
  | atMkdir
  | atOpen
  | atSubmit (k : Nat)
  | atUpdate (k : Nat)
  | atJoin
  | atClose
  | finished
  | failedOpen
deriving DecidableEq

/-- Global state of one run of `tiff2jpeg`: the shared image cursor, the
lock, the progress-bar counter, the job threads, the main thread, and the
output directory's files (an association list, most recent write first). -/
structure PipelineState where
  dirCreated : Bool
  opened : Bool
  cursor : Nat
  lockHolder : Option Nat
  pbar : Nat
  jobs : List JobPC
  main : MainPC
  files : List (String × List Nat)
deriving DecidableEq

/-- Initial state of a run, over whatever files the output directory
already holds. -/
def initState (files0 : List (String × List Nat)) : PipelineState :=
  { dirCreated := false, opened := false, cursor := 0, lockHolder := none,
    pbar := 0, jobs := [], main := .atMkdir, files := files0 }

/-- Labels of the atomic actions of the pipeline and of its jobs. -/
inductive Label where
  | mkdir
  | openOk
  | openFail
  | submit (j : Nat)
  | submitsDone
  | update
  | updatesDone
  | acquire (j : Nat)
  | seek (j : Nat)
  | decode (j : Nat)
  | decodeFail (j : Nat)
  | release (j : Nat)
  | releaseErr (j : Nat)
  | write (j : Nat)
  | join
  | close
deriving DecidableEq

/-- One atomic step of the interleaved execution of `tiff2jpeg(input, dir)`.
`input = none` models a path that `Image.open` rejects. Job actions follow
`save_frame_shared`: the seek and the decode run only between acquire and
release; the decode reads the page at the shared `cursor` (not at the job's
own index — that equality is a theorem); a corrupt page makes the decode
raise, which exits the `with lock:` block (releasing) and ends the thread
with the exception swallowed inside its future. -/
inductive Step (input : Option TiffImage) (dir : String) :
    PipelineState → Label → PipelineState → Prop where
  | mkdir (s : PipelineState) (h : s.main = .atMkdir) :
      Step input dir s .mkdir { s with dirCreated := true, main := .atOpen }
  | openFail (s : PipelineState) (h : s.main = .atOpen) (hin : input = none) :
      Step input dir s .openFail { s with main := .failedOpen }
  | openOk (s : PipelineState) (img : TiffImage) (h : s.main = .atOpen)
      (hin : input = some img) :
      Step input dir s .openOk { s with opened := true, main := .atSubmit 0 }
  | submit (s : PipelineState) (img : TiffImage) (k : Nat)
      (h : s.main = .atSubmit k) (hin : input = some img) (hk : k < img.n_frames) :
      Step input dir s (.submit k)
        { s with jobs := s.jobs ++ [.ready], main := .atSubmit (k + 1) }
  | submitsDone (s : PipelineState) (img : TiffImage) (k : Nat)
      (h : s.main = .atSubmit k) (hin : input = some img) (hk : k = img.n_frames) :
      Step input dir s .submitsDone { s with main := .atUpdate 0 }
  | update (s : PipelineState) (img : TiffImage) (k : Nat)
      (h : s.main = .atUpdate k) (hin : input = some img) (hk : k < img.n_frames) :
      Step input dir s .update { s with pbar := s.pbar + 1, main := .atUpdate (k + 1) }
  | updatesDone (s : PipelineState) (img : TiffImage) (k : Nat)
      (h : s.main = .atUpdate k) (hin : input = some img) (hk : k = img.n_frames) :
      Step input dir s .updatesDone { s with main := .atJoin }
  | join (s : PipelineState) (h : s.main = .atJoin)
      (hall : ∀ pc ∈ s.jobs, pc.terminal = true) :
      Step input dir s .join { s with main := .atClose }
  | close (s : PipelineState) (h : s.main = .atClose) :
      Step input dir s .close { s with opened := false, main := .finished }
  | acquire (s : PipelineState) (j : Nat) (h : s.jobs[j]? = some .ready)
      (hl : s.lockHolder = none) :
      Step input dir s (.acquire j)
        { s with lockHolder := some j, jobs := s.jobs.set j .locked }
  | seek (s : PipelineState) (j : Nat) (h : s.jobs[j]? = some .locked) :
      Step input dir s (.seek j) { s with cursor := j, jobs := s.jobs.set j .seeked }
  | decode (s : PipelineState) (img : TiffImage) (j : Nat) (p : PageFrame)
      (h : s.jobs[j]? = some .seeked) (hin : input = some img)
      (hp : img.pages[s.cursor]? = some (some p)) :
      Step input dir s (.decode j)
        { s with jobs := s.jobs.set j (.decoded (convertRGB p)) }
  | decodeFail (s : PipelineState) (img : TiffImage) (j : Nat)
      (h : s.jobs[j]? = some .seeked) (hin : input = some img)
      (hp : img.pages[s.cursor]? = some none) :
      Step input dir s (.decodeFail j) { s with jobs := s.jobs.set j .erring }
  | release (s : PipelineState) (j : Nat) (f : PageFrame)
      (h : s.jobs[j]? = some (.decoded f)) :
      Step input dir s (.release j)
        { s with lockHolder := none, jobs := s.jobs.set j (.releasedOk f) }
  | releaseErr (s : PipelineState) (j : Nat) (h : s.jobs[j]? = some .erring) :
      Step input dir s (.releaseErr j)
        { s with lockHolder := none, jobs := s.jobs.set j .doneErr }
  | write (s : PipelineState) (j : Nat) (f : PageFrame)
      (h : s.jobs[j]? = some (.releasedOk f)) :
      Step input dir s (.write j)
        { s with files := (jpegFilename dir j, jpegEncode f) :: s.files,
                 jobs := s.jobs.set j .doneOk }

/-- Executions: `Reach input dir s tr s'` means the labelled trace `tr`
leads from `s` to `s'` by atomic steps. -/
inductive Reach (input : Option TiffImage) (dir : String) :
    PipelineState → List Label → PipelineState → Prop where
  | refl (s : PipelineState) : Reach input dir s [] s
  | head (s : PipelineState) (l : Label) (s' : PipelineState) (tr : List Label)
      (s'' : PipelineState) (h : Step input dir s l s')
      (hr : Reach input dir s' tr s'') : Reach input dir s (l :: tr) s''

/-- Executable step function mirroring `Step`, used to build concrete
executions. -/
def stepFn (input : Option TiffImage) (dir : String) (s : PipelineState) :
    Label → Option PipelineState
  | .mkdir =>
      if s.main = .atMkdir then some { s with dirCreated := true, main := .atOpen }
      else none
  | .openFail =>
      match input with
      | none => if s.main = .atOpen then some { s with main := .failedOpen } else none
      | some _ => none
  | .openOk =>
      match input with
      | some _ =>
          if s.main = .atOpen then some { s with opened := true, main := .atSubmit 0 }
          else none
      | none => none
  | .submit j =>
      match input with
      | some img =>
          if s.main = .atSubmit j ∧ j < img.n_frames then
            some { s with jobs := s.jobs ++ [.ready], main := .atSubmit (j + 1) }
          else none
      | none => none
  | .submitsDone =>
      match input with
      | some img =>
          if s.main = .atSubmit img.n_frames then some { s with main := .atUpdate 0 }
          else none
      | none => none
  | .update =>
      match input with
      | some img =>
          match s.main with
          | .atUpdate k =>
              if k < img.n_frames then
                some { s with pbar := s.pbar + 1, main := .atUpdate (k + 1) }
              else none
          | _ => none
      | none => none
  | .updatesDone =>
      match input with
      | some img =>
          if s.main = .atUpdate img.n_frames then some { s with main := .atJoin }
          else none
      | none => none
  | .join =>
      if s.main = .atJoin ∧ ∀ pc ∈ s.jobs, pc.terminal = true then
        some { s with main := .atClose }
      else none
  | .close =>
      if s.main = .atClose then some { s with opened := false, main := .finished }
      else none
  | .acquire j =>
      if s.jobs[j]? = some .ready ∧ s.lockHolder = none then
        some { s with lockHolder := some j, jobs := s.jobs.set j .locked }
      else none
  | .seek j =>
      if s.jobs[j]? = some .locked then
        some { s with cursor := j, jobs := s.jobs.set j .seeked }
      else none
  | .decode j =>
      match input with
      | some img =>
          if s.jobs[j]? = some .seeked then
            match img.pages[s.cursor]? with
            | some (some p) =>
                some { s with jobs := s.jobs.set j (.decoded (convertRGB p)) }
            | _ => none
          else none
      | none => none
  | .decodeFail j =>
      match input with
      | some img =>
          if s.jobs[j]? = some .seeked ∧ img.pages[s.cursor]? = some none then
            some { s with jobs := s.jobs.set j .erring }
          else none
      | none => none
  | .release j =>
      match s.jobs[j]? with
      | some (.decoded f) =>
          some { s with lockHolder := none, jobs := s.jobs.set j (.releasedOk f) }
      | _ => none
  | .releaseErr j =>
      if s.jobs[j]? = some .erring then
        some { s with lockHolder := none, jobs := s.jobs.set j .doneErr }
      else none
  | .write j =>
      match s.jobs[j]? with
      | some (.releasedOk f) =>
          some { s with files := (jpegFilename dir j, jpegEncode f) :: s.files,
                        jobs := s.jobs.set j .doneOk }
      | _ => none

lemma stepFn_sound {input : Option TiffImage} {dir : String} {s : PipelineState}
    {l : Label} {s' : PipelineState} (h : stepFn input dir s l = some s') :
    Step input dir s l s' := by
  cases l
  case mkdir =>
    simp only [stepFn] at h
    split at h
    · exact Option.some.inj h ▸ Step.mkdir s (by assumption)
    · exact absurd h (by simp)
  case openFail =>
    rcases hin : input with _ | img
    · simp only [stepFn, hin] at h
      split at h
      · exact Option.some.inj h ▸ Step.openFail s (by assumption) rfl
      · exact absurd h (by simp)
    · simp only [stepFn, hin] at h
      exact Option.noConfusion h
  case openOk =>
    rcases hin : input with _ | img
    · simp only [stepFn, hin] at h
      exact Option.noConfusion h
    · simp only [stepFn, hin] at h
      split at h
      · exact Option.some.inj h ▸ Step.openOk s img (by assumption) rfl
      · exact absurd h (by simp)
  case submit j =>
    rcases hin : input with _ | img
    · simp only [stepFn, hin] at h
      exact Option.noConfusion h
    · simp only [stepFn, hin] at h
      split at h
      · next hc => exact Option.some.inj h ▸ Step.submit s img j hc.1 rfl hc.2
      · exact absurd h (by simp)
  case submitsDone =>
    rcases hin : input with _ | img
    · simp only [stepFn, hin] at h
      exact Option.noConfusion h
    · simp only [stepFn, hin] at h
      split at h
      · next hc =>
          exact Option.some.inj h ▸ Step.submitsDone s img img.n_frames hc rfl rfl
      · exact absurd h (by simp)
  case update =>
    rcases hin : input with _ | img
    · simp only [stepFn, hin] at h
      exact Option.noConfusion h
    · simp only [stepFn, hin] at h
      split at h
      · next k heq =>
          split at h
          · next hk => exact Option.some.inj h ▸ Step.update s img k heq rfl hk
          · exact absurd h (by simp)
      · exact absurd h (by simp)
  case updatesDone =>
    rcases hin : input with _ | img
    · simp only [stepFn, hin] at h
      exact Option.noConfusion h
    · simp only [stepFn, hin] at h
      split at h
      · next hc =>
          exact Option.some.inj h ▸ Step.updatesDone s img img.n_frames hc rfl rfl
      · exact absurd h (by simp)
  case join =>
    simp only [stepFn] at h
    split at h
    · next hc => exact Option.some.inj h ▸ Step.join s hc.1 hc.2
    · exact absurd h (by simp)
  case close =>
    simp only [stepFn] at h
    split at h
    · exact Option.some.inj h ▸ Step.close s (by assumption)
    · exact absurd h (by simp)
  case acquire j =>
    simp only [stepFn] at h
    split at h
    · next hc => exact Option.some.inj h ▸ Step.acquire s j hc.1 hc.2
    · exact absurd h (by simp)
  case seek j =>
    simp only [stepFn] at h
    split at h
    · exact Option.some.inj h ▸ Step.seek s j (by assumption)
    · exact absurd h (by simp)
  case decode j =>
    rcases hin : input with _ | img
    · simp only [stepFn, hin] at h
      exact Option.noConfusion h
    · simp only [stepFn, hin] at h
      split at h
      · next hj =>
          split at h
          · next p hp => exact Option.some.inj h ▸ Step.decode s img j p hj rfl hp
          · exact absurd h (by simp)
      · exact absurd h (by simp)
  case decodeFail j =>
    rcases hin : input with _ | img
    · simp only [stepFn, hin] at h
      exact Option.noConfusion h
    · simp only [stepFn, hin] at h
      split at h
      · next hc => exact Option.some.inj h ▸ Step.decodeFail s img j hc.1 rfl hc.2
      · exact absurd h (by simp)
  case release j =>
    simp only [stepFn] at h
    split at h
    · next f hj => exact Option.some.inj h ▸ Step.release s j f hj
    · next hj => exact absurd h (by simp)
  case releaseErr j =>
    simp only [stepFn] at h
    split at h
    · exact Option.some.inj h ▸ Step.releaseErr s j (by assumption)
    · exact absurd h (by simp)
  case write j =>
    simp only [stepFn] at h
    split at h
    · next f hj => exact Option.some.inj h ▸ Step.write s j f hj
    · next hj => exact absurd h (by simp)

/-- Run a whole label list with `stepFn`. -/
def runLabels (input : Option TiffImage) (dir : String) :
    PipelineState → List Label → Option PipelineState
  | s, [] => some s
  | s, l :: ls =>
      match stepFn input dir s l with
      | some s' => runLabels input dir s' ls
      | none => none

lemma runLabels_sound {input : Option TiffImage} {dir : String} :
    ∀ {ls : List Label} {s s' : PipelineState},
      runLabels input dir s ls = some s' → Reach input dir s ls s'
  | [], s, s', h => by
      simp only [runLabels] at h
      exact Option.some.inj h ▸ Reach.refl s
  | l :: ls, s, s', h => by
      simp only [runLabels] at h
      cases hs : stepFn input dir s l with
      | none => rw [hs] at h; exact absurd h (by simp)
      | some s1 =>
          rw [hs] at h
          exact Reach.head s l s1 ls s' (stepFn_sound hs) (runLabels_sound h)

lemma getElem?_set_inv {α : Type _} {l : List α} {i j : Nat} {a b : α}
    (h : (l.set i a)[j]? = some b) :
    (j = i ∧ b = a) ∨ (j ≠ i ∧ l[j]? = some b) := by
  by_cases hij : j = i
  · subst hij
    obtain ⟨hlt, hval⟩ := List.getElem?_eq_some_iff.mp h
    rw [List.length_set] at hlt
    rw [List.getElem?_set_self hlt] at h
    exact Or.inl ⟨rfl, (Option.some.inj h).symm⟩
  · exact Or.inr ⟨hij, by rwa [List.getElem?_set_ne (fun he => hij he.symm)] at h⟩

lemma getElem?_set_same {α : Type _} {l : List α} {i : Nat} {a b : α}
    (h : l[i]? = some b) : (l.set i a)[i]? = some a := by
  obtain ⟨hlt, _⟩ := List.getElem?_eq_some_iff.mp h
  exact List.getElem?_set_self hlt

lemma getElem?_concat_inv {α : Type _} {l : List α} {k : Nat} {a b : α}
    (h : (l ++ [a])[k]? = some b) :
    l[k]? = some b ∨ (k = l.length ∧ b = a) := by
  rcases Nat.lt_trichotomy k l.length with hk | hk | hk
  · rw [List.getElem?_append_left hk] at h; exact Or.inl h
  · subst hk
    rw [List.getElem?_concat_length] at h
    exact Or.inr ⟨rfl, (Option.some.inj h).symm⟩
  · rw [List.getElem?_append_right (Nat.le_of_lt hk)] at h
    have : 1 ≤ k - l.length := by omega
    rw [List.getElem?_eq_none (by simpa using this)] at h
    exact absurd h (by simp)

/-- Invariant on the job threads, the lock and the shared cursor. -/
structure JobsInv (input : Option TiffImage) (jobs : List JobPC)
    (lockHolder : Option Nat) (cursor : Nat) : Prop where
  lock_excl : ∀ (j : Nat) (pc : JobPC), jobs[j]? = some pc → pc.inExcl = true → lockHolder = some j
  holder_excl : ∀ (j : Nat), lockHolder = some j → ∃ pc, jobs[j]? = some pc ∧ pc.inExcl = true
  seek_cursor : ∀ (j : Nat), jobs[j]? = some JobPC.seeked → cursor = j
  decoded_val : ∀ (j : Nat) (f : PageFrame),
      jobs[j]? = some (JobPC.decoded f) ∨ jobs[j]? = some (JobPC.releasedOk f) →
      ∃ img p, input = some img ∧ img.pages[j]? = some (some p) ∧ f = convertRGB p
  err_pages : ∀ (j : Nat), jobs[j]? = some JobPC.erring ∨ jobs[j]? = some JobPC.doneErr →
      ∃ img, input = some img ∧ img.pages[j]? = some none
  ok_pages : ∀ (j : Nat), jobs[j]? = some JobPC.doneOk →
      ∃ img p, input = some img ∧ img.pages[j]? = some (some p)

/-- Invariant tying the main thread's program counter to the rest of the
state. -/
def MainInv (input : Option TiffImage) (s : PipelineState) : Prop :=
  match s.main with
  | .atMkdir => s.opened = false ∧ s.jobs = [] ∧ s.pbar = 0 ∧ s.dirCreated = false
  | .atOpen => s.opened = false ∧ s.jobs = [] ∧ s.pbar = 0 ∧ s.dirCreated = true
  | .failedOpen =>
      input = none ∧ s.opened = false ∧ s.jobs = [] ∧ s.pbar = 0 ∧ s.dirCreated = true
  | .atSubmit k => ∃ img, input = some img ∧ s.opened = true ∧ s.dirCreated = true ∧
      s.jobs.length = k ∧ k ≤ img.n_frames ∧ s.pbar = 0
  | .atUpdate k => ∃ img, input = some img ∧ s.opened = true ∧ s.dirCreated = true ∧
      s.jobs.length = img.n_frames ∧ s.pbar = k ∧ k ≤ img.n_frames
  | .atJoin => ∃ img, input = some img ∧ s.opened = true ∧ s.dirCreated = true ∧
      s.jobs.length = img.n_frames ∧ s.pbar = img.n_frames
  | .atClose => ∃ img, input = some img ∧ s.opened = true ∧ s.dirCreated = true ∧
      s.jobs.length = img.n_frames ∧ s.pbar = img.n_frames ∧
      ∀ pc ∈ s.jobs, pc.terminal = true
  | .finished => ∃ img, input = some img ∧ s.opened = false ∧ s.dirCreated = true ∧
      s.jobs.length = img.n_frames ∧ s.pbar = img.n_frames ∧
      ∀ pc ∈ s.jobs, pc.terminal = true

/-- Invariant on the output directory: the files of this run are exactly one
JPEG per successfully finished job, on top of the initial contents. -/
def FilesLog (input : Option TiffImage) (dir : String)
    (files0 : List (String × List Nat)) (jobs : List JobPC)
    (files : List (String × List Nat)) : Prop :=
  ∃ l, files = l ++ files0 ∧
    (∀ e ∈ l, ∃ (j : Nat) (p : PageFrame) (img : TiffImage), input = some img ∧ img.pages[j]? = some (some p) ∧
        jobs[j]? = some JobPC.doneOk ∧ e = (jpegFilename dir j, jpegEncode (convertRGB p))) ∧
    ∀ (j : Nat), (l.map Prod.fst).count (jpegFilename dir j)
        = if jobs[j]? = some JobPC.doneOk then 1 else 0

/-- The global invariant of reachable states. -/
structure SysInv (input : Option TiffImage) (dir : String)
    (files0 : List (String × List Nat)) (s : PipelineState) : Prop where
  jobs_inv : JobsInv input s.jobs s.lockHolder s.cursor
  main_inv : MainInv input s
  files_log : FilesLog input dir files0 s.jobs s.files

lemma sysInv_init (input : Option TiffImage) (dir : String)
    (files0 : List (String × List Nat)) : SysInv input dir files0 (initState files0) := by
  refine ⟨⟨?_, ?_, ?_, ?_, ?_, ?_⟩, ?_, ?_⟩
  · intro j pc h _; simp [initState] at h
  · intro j h; simp [initState] at h
  · intro j h; simp [initState] at h
  · intro j f h; simp [initState] at h
  · intro j h; simp [initState] at h
  · intro j h; simp [initState] at h
  · unfold MainInv; exact ⟨rfl, rfl, rfl, rfl⟩
  · exact ⟨[], by simp [initState], by simp, by intro j; simp [initState]⟩

lemma mainInv_of_set {input : Option TiffImage} {s s' : PipelineState}
    (hM : MainInv input s) (hmain : s'.main = s.main) (hop : s'.opened = s.opened)
    (hdir : s'.dirCreated = s.dirCreated) (hpb : s'.pbar = s.pbar)
    {j : Nat} {pc : JobPC} (hj : s.jobs[j]? = some pc) (hpc : pc.terminal = false)
    {pc' : JobPC} (hjobs : s'.jobs = s.jobs.set j pc') : MainInv input s' := by
  unfold MainInv at hM ⊢
  rw [hmain]
  cases hsm : s.main <;> rw [hsm] at hM
  case atMkdir =>
    rw [hM.2.1] at hj; exact absurd hj (by simp)
  case atOpen =>
    rw [hM.2.1] at hj; exact absurd hj (by simp)
  case failedOpen =>
    rw [hM.2.2.1] at hj; exact absurd hj (by simp)
  case atSubmit k =>
    obtain ⟨img, hin, hopn, hdc, hlen, hle, hpb0⟩ := hM
    exact ⟨img, hin, by rw [hop]; exact hopn, by rw [hdir]; exact hdc,
      by rw [hjobs, List.length_set]; exact hlen, hle, by rw [hpb]; exact hpb0⟩
  case atUpdate k =>
    obtain ⟨img, hin, hopn, hdc, hlen, hpbk, hle⟩ := hM
    exact ⟨img, hin, by rw [hop]; exact hopn, by rw [hdir]; exact hdc,
      by rw [hjobs, List.length_set]; exact hlen, by rw [hpb]; exact hpbk, hle⟩
  case atJoin =>
    obtain ⟨img, hin, hopn, hdc, hlen, hpbn⟩ := hM
    exact ⟨img, hin, by rw [hop]; exact hopn, by rw [hdir]; exact hdc,
      by rw [hjobs, List.length_set]; exact hlen, by rw [hpb]; exact hpbn⟩
  case atClose =>
    obtain ⟨img, hin, hopn, hdc, hlen, hpbn, hterm⟩ := hM
    have := hterm pc (List.getElem?_mem hj)
    rw [hpc] at this
    exact absurd this (by simp)
  case finished =>
    obtain ⟨img, hin, hopn, hdc, hlen, hpbn, hterm⟩ := hM
    have := hterm pc (List.getElem?_mem hj)
    rw [hpc] at this
    exact absurd this (by simp)

lemma filesLog_of_set {input : Option TiffImage} {dir : String}
    {files0 : List (String × List Nat)} {jobs : List JobPC}
    {files : List (String × List Nat)}
    (hF : FilesLog input dir files0 jobs files)
    {j : Nat} {pc : JobPC} (hj : jobs[j]? = some pc) (hpc : pc ≠ JobPC.doneOk)
    {pc' : JobPC} (hpc' : pc' ≠ JobPC.doneOk) :
    FilesLog input dir files0 (jobs.set j pc') files := by
  obtain ⟨l, hfl, hmem, hcount⟩ := hF
  refine ⟨l, hfl, ?_, ?_⟩
  · intro e he
    obtain ⟨k, p, img, hin, hp, hk, hee⟩ := hmem e he
    have hkj : k ≠ j := by
      intro hkeq; subst hkeq; rw [hj] at hk
      exact hpc (Option.some.inj hk)
    refine ⟨k, p, img, hin, hp, ?_, hee⟩
    rwa [List.getElem?_set_ne (fun he2 => hkj he2.symm)]
  · intro k
    by_cases hkj : k = j
    · subst hkj
      rw [getElem?_set_same hj]
      rw [if_neg (fun hcc => hpc' (Option.some.inj hcc))]
      have h0 := hcount k
      rwa [if_neg (by rw [hj]; exact fun hcc => hpc (Option.some.inj hcc))] at h0
    · rw [List.getElem?_set_ne (fun he2 => hkj he2.symm)]
      exact hcount k

lemma jobsInv_acquire {input : Option TiffImage} {jobs : List JobPC}
    {lockHolder : Option Nat} {cursor : Nat} {j : Nat}
    (hJ : JobsInv input jobs lockHolder cursor)
    (hj : jobs[j]? = some JobPC.ready) (hl : lockHolder = none) :
    JobsInv input (jobs.set j JobPC.locked) (some j) cursor := by
  refine ⟨?_, ?_, ?_, ?_, ?_, ?_⟩
  · intro k pc hk hexcl
    rcases getElem?_set_inv hk with ⟨hkj, _⟩ | ⟨hkj, hold⟩
    · rw [hkj]
    · have := hJ.lock_excl k pc hold hexcl
      rw [hl] at this
      exact absurd this (by simp)
  · intro k hk
    have hkj := Option.some.inj hk
    subst hkj
    exact ⟨JobPC.locked, getElem?_set_same hj, rfl⟩
  · intro k hk
    rcases getElem?_set_inv hk with ⟨_, hpc⟩ | ⟨_, hold⟩
    · exact absurd hpc (by simp)
    · have := hJ.lock_excl k JobPC.seeked hold rfl
      rw [hl] at this
      exact absurd this (by simp)
  · intro k f hor
    rcases hor with hk | hk <;>
      rcases getElem?_set_inv hk with ⟨_, hpc⟩ | ⟨_, hold⟩
    · exact absurd hpc (by simp)
    · exact hJ.decoded_val k f (Or.inl hold)
    · exact absurd hpc (by simp)
    · exact hJ.decoded_val k f (Or.inr hold)
  · intro k hor
    rcases hor with hk | hk <;>
      rcases getElem?_set_inv hk with ⟨_, hpc⟩ | ⟨_, hold⟩
    · exact absurd hpc (by simp)
    · exact hJ.err_pages k (Or.inl hold)
    · exact absurd hpc (by simp)
    · exact hJ.err_pages k (Or.inr hold)
  · intro k hk
    rcases getElem?_set_inv hk with ⟨_, hpc⟩ | ⟨_, hold⟩
    · exact absurd hpc (by simp)
    · exact hJ.ok_pages k hold

lemma jobsInv_seek {input : Option TiffImage} {jobs : List JobPC}
    {lockHolder : Option Nat} {cursor : Nat} {j : Nat}
    (hJ : JobsInv input jobs lockHolder cursor)
    (hj : jobs[j]? = some JobPC.locked) :
    JobsInv input (jobs.set j JobPC.seeked) lockHolder j := by
  have hLj : lockHolder = some j := hJ.lock_excl j JobPC.locked hj rfl
  refine ⟨?_, ?_, ?_, ?_, ?_, ?_⟩
  · intro k pc hk hexcl
    rcases getElem?_set_inv hk with ⟨hkj, _⟩ | ⟨hkj, hold⟩
    · rw [hkj]; exact hLj
    · exact hJ.lock_excl k pc hold hexcl
  · intro k hk
    rw [hLj] at hk
    have hkj := Option.some.inj hk
    subst hkj
    exact ⟨JobPC.seeked, getElem?_set_same hj, rfl⟩
  · intro k hk
    rcases getElem?_set_inv hk with ⟨hkj, _⟩ | ⟨hkj, hold⟩
    · exact hkj.symm
    · have h1 := hJ.lock_excl k JobPC.seeked hold rfl
      rw [hLj] at h1
      exact absurd (Option.some.inj h1).symm hkj
  · intro k f hor
    rcases hor with hk | hk <;>
      rcases getElem?_set_inv hk with ⟨_, hpc⟩ | ⟨_, hold⟩
    · exact absurd hpc (by simp)
    · exact hJ.decoded_val k f (Or.inl hold)
    · exact absurd hpc (by simp)
    · exact hJ.decoded_val k f (Or.inr hold)
  · intro k hor
    rcases hor with hk | hk <;>
      rcases getElem?_set_inv hk with ⟨_, hpc⟩ | ⟨_, hold⟩
    · exact absurd hpc (by simp)
    · exact hJ.err_pages k (Or.inl hold)
    · exact absurd hpc (by simp)
    · exact hJ.err_pages k (Or.inr hold)
  · intro k hk
    rcases getElem?_set_inv hk with ⟨_, hpc⟩ | ⟨_, hold⟩
    · exact absurd hpc (by simp)
    · exact hJ.ok_pages k hold

lemma jobsInv_decode {input : Option TiffImage} {jobs : List JobPC}
    {lockHolder : Option Nat} {cursor : Nat} {j : Nat} {img : TiffImage}
    {p : PageFrame} (hJ : JobsInv input jobs lockHolder cursor)
    (hj : jobs[j]? = some JobPC.seeked) (hin : input = some img)
    (hp : img.pages[cursor]? = some (some p)) :
    JobsInv input (jobs.set j (JobPC.decoded (convertRGB p))) lockHolder cursor := by
  have hLj : lockHolder = some j := hJ.lock_excl j JobPC.seeked hj rfl
  have hc : cursor = j := hJ.seek_cursor j hj
  have hpj : img.pages[j]? = some (some p) := by rwa [hc] at hp
  refine ⟨?_, ?_, ?_, ?_, ?_, ?_⟩
  · intro k pc hk hexcl
    rcases getElem?_set_inv hk with ⟨hkj, _⟩ | ⟨hkj, hold⟩
    · rw [hkj]; exact hLj
    · exact hJ.lock_excl k pc hold hexcl
  · intro k hk
    rw [hLj] at hk
    have hkj := Option.some.inj hk
    subst hkj
    exact ⟨JobPC.decoded (convertRGB p), getElem?_set_same hj, rfl⟩
  · intro k hk
    rcases getElem?_set_inv hk with ⟨_, hpc⟩ | ⟨_, hold⟩
    · exact absurd hpc (by simp)
    · exact hJ.seek_cursor k hold
  · intro k f hor
    rcases hor with hk | hk <;>
      rcases getElem?_set_inv hk with ⟨hkj, hpc⟩ | ⟨_, hold⟩
    · exact ⟨img, p, hin, hkj ▸ hpj, JobPC.decoded.inj hpc⟩
    · exact hJ.decoded_val k f (Or.inl hold)
    · exact absurd hpc (by simp)
    · exact hJ.decoded_val k f (Or.inr hold)
  · intro k hor
    rcases hor with hk | hk <;>
      rcases getElem?_set_inv hk with ⟨_, hpc⟩ | ⟨_, hold⟩
    · exact absurd hpc (by simp)
    · exact hJ.err_pages k (Or.inl hold)
    · exact absurd hpc (by simp)
    · exact hJ.err_pages k (Or.inr hold)
  · intro k hk
    rcases getElem?_set_inv hk with ⟨_, hpc⟩ | ⟨_, hold⟩
    · exact absurd hpc (by simp)
    · exact hJ.ok_pages k hold

lemma jobsInv_decodeFail {input : Option TiffImage} {jobs : List JobPC}
    {lockHolder : Option Nat} {cursor : Nat} {j : Nat} {img : TiffImage}
    (hJ : JobsInv input jobs lockHolder cursor)
    (hj : jobs[j]? = some JobPC.seeked) (hin : input = some img)
    (hp : img.pages[cursor]? = some none) :
    JobsInv input (jobs.set j JobPC.erring) lockHolder cursor := by
  have hLj : lockHolder = some j := hJ.lock_excl j JobPC.seeked hj rfl
  have hc : cursor = j := hJ.seek_cursor j hj
  have hpj : img.pages[j]? = some none := by rwa [hc] at hp
  refine ⟨?_, ?_, ?_, ?_, ?_, ?_⟩
  · intro k pc hk hexcl
    rcases getElem?_set_inv hk with ⟨hkj, _⟩ | ⟨hkj, hold⟩
    · rw [hkj]; exact hLj
    · exact hJ.lock_excl k pc hold hexcl
  · intro k hk
    rw [hLj] at hk
    have hkj := Option.some.inj hk
    subst hkj
    exact ⟨JobPC.erring, getElem?_set_same hj, rfl⟩
  · intro k hk
    rcases getElem?_set_inv hk with ⟨_, hpc⟩ | ⟨_, hold⟩
    · exact absurd hpc (by simp)
    · exact hJ.seek_cursor k hold
  · intro k f hor
    rcases hor with hk | hk <;>
      rcases getElem?_set_inv hk with ⟨_, hpc⟩ | ⟨_, hold⟩
    · exact absurd hpc (by simp)
    · exact hJ.decoded_val k f (Or.inl hold)
    · exact absurd hpc (by simp)
    · exact hJ.decoded_val k f (Or.inr hold)
  · intro k hor
    rcases hor with hk | hk <;>
      rcases getElem?_set_inv hk with ⟨hkj, hpc⟩ | ⟨_, hold⟩
    · exact ⟨img, hin, hkj ▸ hpj⟩
    · exact hJ.err_pages k (Or.inl hold)
    · exact absurd hpc (by simp)
    · exact hJ.err_pages k (Or.inr hold)
  · intro k hk
    rcases getElem?_set_inv hk with ⟨_, hpc⟩ | ⟨_, hold⟩
    · exact absurd hpc (by simp)
    · exact hJ.ok_pages k hold

lemma jobsInv_release {input : Option TiffImage} {jobs : List JobPC}
    {lockHolder : Option Nat} {cursor : Nat} {j : Nat} {f : PageFrame}
    (hJ : JobsInv input jobs lockHolder cursor)
    (hj : jobs[j]? = some (JobPC.decoded f)) :
    JobsInv input (jobs.set j (JobPC.releasedOk f)) none cursor := by
  have hLj : lockHolder = some j := hJ.lock_excl j (JobPC.decoded f) hj rfl
  refine ⟨?_, ?_, ?_, ?_, ?_, ?_⟩
  · intro k pc hk hexcl
    rcases getElem?_set_inv hk with ⟨hkj, hpc⟩ | ⟨hkj, hold⟩
    · rw [hpc] at hexcl
      exact absurd hexcl (by simp [JobPC.inExcl])
    · have h1 := hJ.lock_excl k pc hold hexcl
      rw [hLj] at h1
      exact absurd (Option.some.inj h1).symm hkj
  · intro k hk
    exact absurd hk (by simp)
  · intro k hk
    rcases getElem?_set_inv hk with ⟨_, hpc⟩ | ⟨_, hold⟩
    · exact absurd hpc (by simp)
    · exact hJ.seek_cursor k hold
  · intro k f' hor
    rcases hor with hk | hk <;>
      rcases getElem?_set_inv hk with ⟨hkj, hpc⟩ | ⟨_, hold⟩
    · exact absurd hpc (by simp)
    · exact hJ.decoded_val k f' (Or.inl hold)
    · have hf : f' = f := JobPC.releasedOk.inj hpc
      subst hf
      exact hkj ▸ hJ.decoded_val j f' (Or.inl hj)
    · exact hJ.decoded_val k f' (Or.inr hold)
  · intro k hor
    rcases hor with hk | hk <;>
      rcases getElem?_set_inv hk with ⟨_, hpc⟩ | ⟨_, hold⟩
    · exact absurd hpc (by simp)
    · exact hJ.err_pages k (Or.inl hold)
    · exact absurd hpc (by simp)
    · exact hJ.err_pages k (Or.inr hold)
  · intro k hk
    rcases getElem?_set_inv hk with ⟨_, hpc⟩ | ⟨_, hold⟩
    · exact absurd hpc (by simp)
    · exact hJ.ok_pages k hold

lemma jobsInv_releaseErr {input : Option TiffImage} {jobs : List JobPC}
    {lockHolder : Option Nat} {cursor : Nat} {j : Nat}
    (hJ : JobsInv input jobs lockHolder cursor)
    (hj : jobs[j]? = some JobPC.erring) :
    JobsInv input (jobs.set j JobPC.doneErr) none cursor := by
  have hLj : lockHolder = some j := hJ.lock_excl j JobPC.erring hj rfl
  refine ⟨?_, ?_, ?_, ?_, ?_, ?_⟩
  · intro k pc hk hexcl
    rcases getElem?_set_inv hk with ⟨hkj, hpc⟩ | ⟨hkj, hold⟩
    · rw [hpc] at hexcl
      exact absurd hexcl (by simp [JobPC.inExcl])
    · have h1 := hJ.lock_excl k pc hold hexcl
      rw [hLj] at h1
      exact absurd (Option.some.inj h1).symm hkj
  · intro k hk
    exact absurd hk (by simp)
  · intro k hk
    rcases getElem?_set_inv hk with ⟨_, hpc⟩ | ⟨_, hold⟩
    · exact absurd hpc (by simp)
    · exact hJ.seek_cursor k hold
  · intro k f' hor
    rcases hor with hk | hk <;>
      rcases getElem?_set_inv hk with ⟨_, hpc⟩ | ⟨_, hold⟩
    · exact absurd hpc (by simp)
    · exact hJ.decoded_val k f' (Or.inl hold)
    · exact absurd hpc (by simp)
    · exact hJ.decoded_val k f' (Or.inr hold)
  · intro k hor
    rcases hor with hk | hk <;>
      rcases getElem?_set_inv hk with ⟨hkj, hpc⟩ | ⟨_, hold⟩
    · exact absurd hpc (by simp)
    · exact hJ.err_pages k (Or.inl hold)
    · exact hkj ▸ hJ.err_pages j (Or.inl hj)
    · exact hJ.err_pages k (Or.inr hold)
  · intro k hk
    rcases getElem?_set_inv hk with ⟨_, hpc⟩ | ⟨_, hold⟩
    · exact absurd hpc (by simp)
    · exact hJ.ok_pages k hold

lemma jobsInv_write {input : Option TiffImage} {jobs : List JobPC}
    {lockHolder : Option Nat} {cursor : Nat} {j : Nat} {f : PageFrame}
    (hJ : JobsInv input jobs lockHolder cursor)
    (hj : jobs[j]? = some (JobPC.releasedOk f)) :
    JobsInv input (jobs.set j JobPC.doneOk) lockHolder cursor := by
  refine ⟨?_, ?_, ?_, ?_, ?_, ?_⟩
  · intro k pc hk hexcl
    rcases getElem?_set_inv hk with ⟨hkj, hpc⟩ | ⟨hkj, hold⟩
    · rw [hpc] at hexcl
      exact absurd hexcl (by simp [JobPC.inExcl])
    · exact hJ.lock_excl k pc hold hexcl
  · intro k hk
    obtain ⟨pc, hpc, hex⟩ := hJ.holder_excl k hk
    by_cases hkj : k = j
    · subst hkj
      rw [hj] at hpc
      rw [← Option.some.inj hpc] at hex
      exact absurd hex (by simp [JobPC.inExcl])
    · exact ⟨pc, by rwa [List.getElem?_set_ne (fun he2 => hkj he2.symm)], hex⟩
  · intro k hk
    rcases getElem?_set_inv hk with ⟨_, hpc⟩ | ⟨_, hold⟩
    · exact absurd hpc (by simp)
    · exact hJ.seek_cursor k hold
  · intro k f' hor
    rcases hor with hk | hk <;>
      rcases getElem?_set_inv hk with ⟨_, hpc⟩ | ⟨_, hold⟩
    · exact absurd hpc (by simp)
    · exact hJ.decoded_val k f' (Or.inl hold)
    · exact absurd hpc (by simp)
    · exact hJ.decoded_val k f' (Or.inr hold)
  · intro k hor
    rcases hor with hk | hk <;>
      rcases getElem?_set_inv hk with ⟨_, hpc⟩ | ⟨_, hold⟩
    · exact absurd hpc (by simp)
    · exact hJ.err_pages k (Or.inl hold)
    · exact absurd hpc (by simp)
    · exact hJ.err_pages k (Or.inr hold)
  · intro k hk
    rcases getElem?_set_inv hk with ⟨hkj, _⟩ | ⟨_, hold⟩
    · obtain ⟨img, p, hin, hp, _⟩ := hJ.decoded_val j f (Or.inr hj)
      exact ⟨img, p, hin, hkj ▸ hp⟩
    · exact hJ.ok_pages k hold

lemma jobsInv_submit {input : Option TiffImage} {jobs : List JobPC}
    {lockHolder : Option Nat} {cursor : Nat}
    (hJ : JobsInv input jobs lockHolder cursor) :
    JobsInv input (jobs ++ [JobPC.ready]) lockHolder cursor := by
  refine ⟨?_, ?_, ?_, ?_, ?_, ?_⟩
  · intro k pc hk hexcl
    rcases getElem?_concat_inv hk with hold | ⟨_, hpc⟩
    · exact hJ.lock_excl k pc hold hexcl
    · rw [hpc] at hexcl
      exact absurd hexcl (by simp [JobPC.inExcl])
  · intro k hk
    obtain ⟨pc, hpc, hex⟩ := hJ.holder_excl k hk
    obtain ⟨hlt, _⟩ := List.getElem?_eq_some_iff.mp hpc
    exact ⟨pc, by rwa [List.getElem?_append_left hlt], hex⟩
  · intro k hk
    rcases getElem?_concat_inv hk with hold | ⟨_, hpc⟩
    · exact hJ.seek_cursor k hold
    · exact absurd hpc (by simp)
  · intro k f hor
    rcases hor with hk | hk <;> rcases getElem?_concat_inv hk with hold | ⟨_, hpc⟩
    · exact hJ.decoded_val k f (Or.inl hold)
    · exact absurd hpc (by simp)
    · exact hJ.decoded_val k f (Or.inr hold)
    · exact absurd hpc (by simp)
  · intro k hor
    rcases hor with hk | hk <;> rcases getElem?_concat_inv hk with hold | ⟨_, hpc⟩
    · exact hJ.err_pages k (Or.inl hold)
    · exact absurd hpc (by simp)
    · exact hJ.err_pages k (Or.inr hold)
    · exact absurd hpc (by simp)
  · intro k hk
    rcases getElem?_concat_inv hk with hold | ⟨_, hpc⟩
    · exact hJ.ok_pages k hold
    · exact absurd hpc (by simp)

lemma filesLog_submit {input : Option TiffImage} {dir : String}
    {files0 : List (String × List Nat)} {jobs : List JobPC}
    {files : List (String × List Nat)}
    (hF : FilesLog input dir files0 jobs files) :
    FilesLog input dir files0 (jobs ++ [JobPC.ready]) files := by
  obtain ⟨l, hfl, hmem, hcount⟩ := hF
  refine ⟨l, hfl, ?_, ?_⟩
  · intro e he
    obtain ⟨k, p, img, hin, hp, hk, hee⟩ := hmem e he
    obtain ⟨hlt, _⟩ := List.getElem?_eq_some_iff.mp hk
    exact ⟨k, p, img, hin, hp, by rwa [List.getElem?_append_left hlt], hee⟩
  · intro k
    rcases Nat.lt_trichotomy k jobs.length with h | h | h
    · rw [List.getElem?_append_left h]
      exact hcount k
    · subst h
      rw [List.getElem?_concat_length]
      rw [if_neg (fun hcc => JobPC.noConfusion (Option.some.inj hcc))]
      have h0 := hcount jobs.length
      rwa [if_neg (by
        rw [List.getElem?_eq_none (Nat.le_refl _)]
        exact fun hcc => Option.noConfusion hcc)] at h0
    · rw [List.getElem?_append_right (Nat.le_of_lt h)]
      have h1 : (([JobPC.ready] : List JobPC))[k - jobs.length]? = none := by
        apply List.getElem?_eq_none
        simp
        omega
      rw [h1]
      rw [if_neg (fun hcc => Option.noConfusion hcc)]
      have h0 := hcount k
      rwa [if_neg (by
        rw [List.getElem?_eq_none (Nat.le_of_lt h)]
        exact fun hcc => Option.noConfusion hcc)] at h0

lemma filesLog_write {input : Option TiffImage} {dir : String}
    {files0 : List (String × List Nat)} {jobs : List JobPC}
    {files : List (String × List Nat)} {j : Nat} {f : PageFrame}
    {img : TiffImage} {p : PageFrame}
    (hF : FilesLog input dir files0 jobs files)
    (hj : jobs[j]? = some (JobPC.releasedOk f))
    (hin : input = some img) (hp : img.pages[j]? = some (some p))
    (hf : f = convertRGB p) :
    FilesLog input dir files0 (jobs.set j JobPC.doneOk)
      ((jpegFilename dir j, jpegEncode f) :: files) := by
  obtain ⟨l, hfl, hmem, hcount⟩ := hF
  refine ⟨(jpegFilename dir j, jpegEncode f) :: l, by rw [hfl]; rfl, ?_, ?_⟩
  · intro e he
    rcases List.mem_cons.mp he with he | he
    · exact ⟨j, p, img, hin, hp, getElem?_set_same hj, by rw [he, hf]⟩
    · obtain ⟨k, p', img', hin', hp', hk, hee⟩ := hmem e he
      have hkj : k ≠ j := by
        intro hkeq
        subst hkeq
        rw [hj] at hk
        exact JobPC.noConfusion (Option.some.inj hk)
      exact ⟨k, p', img', hin', hp',
        by rwa [List.getElem?_set_ne (fun he2 => hkj he2.symm)], hee⟩
  · intro k
    by_cases hkj : k = j
    · subst hkj
      rw [getElem?_set_same hj, if_pos rfl]
      have h0 := hcount k
      rw [if_neg (by rw [hj]; exact fun hcc => JobPC.noConfusion (Option.some.inj hcc))] at h0
      simp only [List.map_cons, List.count_cons_self]
      rw [h0]
    · rw [List.getElem?_set_ne (fun he2 => hkj he2.symm)]
      have h0 := hcount k
      simp only [List.map_cons]
      rw [List.count_cons_of_ne (fun hcc => hkj (jpegFilename_injective dir hcc))]
      exact h0

lemma sysInv_step {input : Option TiffImage} {dir : String}
    {files0 : List (String × List Nat)} {s : PipelineState} {l : Label}
    {s' : PipelineState} (hI : SysInv input dir files0 s)
    (hs : Step input dir s l s') : SysInv input dir files0 s' := by
  obtain ⟨hJ, hM, hF⟩ := hI
  cases hs with
  | mkdir hm =>
      refine ⟨hJ, ?_, hF⟩
      unfold MainInv at hM ⊢
      rw [hm] at hM
      exact ⟨hM.1, hM.2.1, hM.2.2.1, rfl⟩
  | openFail hm hin =>
      refine ⟨hJ, ?_, hF⟩
      unfold MainInv at hM ⊢
      rw [hm] at hM
      exact ⟨hin, hM.1, hM.2.1, hM.2.2.1, hM.2.2.2⟩
  | openOk img hm hin =>
      refine ⟨hJ, ?_, hF⟩
      unfold MainInv at hM ⊢
      rw [hm] at hM
      exact ⟨img, hin, rfl, hM.2.2.2, by rw [hM.2.1]; rfl, Nat.zero_le _, hM.2.2.1⟩
  | submit img k hm hin hk =>
      refine ⟨jobsInv_submit hJ, ?_, filesLog_submit hF⟩
      unfold MainInv at hM ⊢
      rw [hm] at hM
      obtain ⟨img', hin', ho, hd, hlen, hle, hp0⟩ := hM
      have himg : img' = img := by
        rw [hin] at hin'
        exact (Option.some.inj hin').symm
      refine ⟨img, hin, ho, hd, ?_, Nat.succ_le_of_lt hk, hp0⟩
      rw [List.length_append, hlen]
      rfl
  | submitsDone img k hm hin hk =>
      refine ⟨hJ, ?_, hF⟩
      unfold MainInv at hM ⊢
      rw [hm] at hM
      obtain ⟨img', hin', ho, hd, hlen, hle, hp0⟩ := hM
      have himg : img' = img := by
        rw [hin] at hin'
        exact (Option.some.inj hin').symm
      exact ⟨img, hin, ho, hd, by rw [hlen, hk], hp0, Nat.zero_le _⟩
  | update img k hm hin hk =>
      refine ⟨hJ, ?_, hF⟩
      unfold MainInv at hM ⊢
      rw [hm] at hM
      obtain ⟨img', hin', ho, hd, hlen, hpk, hle⟩ := hM
      have himg : img' = img := by
        rw [hin] at hin'
        exact (Option.some.inj hin').symm
      refine ⟨img', hin', ho, hd, hlen, by rw [hpk], ?_⟩
      rw [himg]
      exact Nat.succ_le_of_lt hk
  | updatesDone img k hm hin hk =>
      refine ⟨hJ, ?_, hF⟩
      unfold MainInv at hM ⊢
      rw [hm] at hM
      obtain ⟨img', hin', ho, hd, hlen, hpk, hle⟩ := hM
      have himg : img' = img := by
        rw [hin] at hin'
        exact (Option.some.inj hin').symm
      exact ⟨img', hin', ho, hd, hlen, by rw [hpk, hk, himg]⟩
  | join hm hall =>
      refine ⟨hJ, ?_, hF⟩
      unfold MainInv at hM ⊢
      rw [hm] at hM
      obtain ⟨img, hin', ho, hd, hlen, hpn⟩ := hM
      exact ⟨img, hin', ho, hd, hlen, hpn, hall⟩
  | close hm =>
      refine ⟨hJ, ?_, hF⟩
      unfold MainInv at hM ⊢
      rw [hm] at hM
      obtain ⟨img, hin', ho, hd, hlen, hpn, hterm⟩ := hM
      exact ⟨img, hin', rfl, hd, hlen, hpn, hterm⟩
  | acquire j hjr hl =>
      exact ⟨jobsInv_acquire hJ hjr hl,
        mainInv_of_set hM rfl rfl rfl rfl hjr rfl rfl,
        filesLog_of_set hF hjr (fun h => JobPC.noConfusion h)
          (fun h => JobPC.noConfusion h)⟩
  | seek j hjl =>
      exact ⟨jobsInv_seek hJ hjl,
        mainInv_of_set hM rfl rfl rfl rfl hjl rfl rfl,
        filesLog_of_set hF hjl (fun h => JobPC.noConfusion h)
          (fun h => JobPC.noConfusion h)⟩
  | decode img j p hjs hin hp =>
      exact ⟨jobsInv_decode hJ hjs hin hp,
        mainInv_of_set hM rfl rfl rfl rfl hjs rfl rfl,
        filesLog_of_set hF hjs (fun h => JobPC.noConfusion h)
          (fun h => JobPC.noConfusion h)⟩
  | decodeFail img j hjs hin hp =>
      exact ⟨jobsInv_decodeFail hJ hjs hin hp,
        mainInv_of_set hM rfl rfl rfl rfl hjs rfl rfl,
        filesLog_of_set hF hjs (fun h => JobPC.noConfusion h)
          (fun h => JobPC.noConfusion h)⟩
  | release j f hjd =>
      exact ⟨jobsInv_release hJ hjd,
        mainInv_of_set hM rfl rfl rfl rfl hjd rfl rfl,
        filesLog_of_set hF hjd (fun h => JobPC.noConfusion h)
          (fun h => JobPC.noConfusion h)⟩
  | releaseErr j hje =>
      exact ⟨jobsInv_releaseErr hJ hje,
        mainInv_of_set hM rfl rfl rfl rfl hje rfl rfl,
        filesLog_of_set hF hje (fun h => JobPC.noConfusion h)
          (fun h => JobPC.noConfusion h)⟩
  | write j f hjw =>
      obtain ⟨img, p, hin, hp, hf⟩ := hJ.decoded_val j f (Or.inr hjw)
      exact ⟨jobsInv_write hJ hjw,
        mainInv_of_set hM rfl rfl rfl rfl hjw rfl rfl,
        filesLog_write hF hjw hin hp hf⟩

lemma sysInv_reach {input : Option TiffImage} {dir : String}
    {files0 : List (String × List Nat)} {s0 : PipelineState} {tr : List Label}
    {s : PipelineState} (hr : Reach input dir s0 tr s)
    (h0 : SysInv input dir files0 s0) : SysInv input dir files0 s := by
  induction hr with
  | refl s => exact h0
  | head s l s1 tr s2 hstep hrr ih => exact ih (sysInv_step h0 hstep)

/-- Has the main thread passed the successful `Image.open`? -/
def openStage : MainPC → Nat
  | .atMkdir | .atOpen | .failedOpen => 0
  | _ => 1

/-- Has the main thread closed the image (left the `Image.open` block)? -/
def closeStage : MainPC → Nat
  | .finished => 1
  | _ => 0

lemma openStage_step {input : Option TiffImage} {dir : String}
    {s : PipelineState} {l : Label} {s' : PipelineState}
    (h : Step input dir s l s') :
    openStage s'.main = openStage s.main + (if l = Label.openOk then 1 else 0) := by
  cases h <;> simp_all [openStage]

lemma closeStage_step {input : Option TiffImage} {dir : String}
    {s : PipelineState} {l : Label} {s' : PipelineState}
    (h : Step input dir s l s') :
    closeStage s'.main = closeStage s.main + (if l = Label.close then 1 else 0) := by
  cases h <;> simp_all [closeStage]

lemma count_openOk_reach {input : Option TiffImage} {dir : String}
    {s0 : PipelineState} {tr : List Label} {s : PipelineState}
    (hr : Reach input dir s0 tr s) :
    tr.count Label.openOk + openStage s0.main = openStage s.main := by
  induction hr with
  | refl s => simp
  | head s l s1 tr s2 hstep hrr ih =>
      have hst := openStage_step hstep
      by_cases hl : l = Label.openOk
      · subst hl
        rw [List.count_cons_self]
        rw [if_pos rfl] at hst
        omega
      · rw [List.count_cons_of_ne (fun he => hl he.symm)]
        simp only [if_neg hl] at hst
        omega

lemma count_close_reach {input : Option TiffImage} {dir : String}
    {s0 : PipelineState} {tr : List Label} {s : PipelineState}
    (hr : Reach input dir s0 tr s) :
    tr.count Label.close + closeStage s0.main = closeStage s.main := by
  induction hr with
  | refl s => simp
  | head s l s1 tr s2 hstep hrr ih =>
      have hst := closeStage_step hstep
      by_cases hl : l = Label.close
      · subst hl
        rw [List.count_cons_self]
        rw [if_pos rfl] at hst
        omega
      · rw [List.count_cons_of_ne (fun he => hl he.symm)]
        simp only [if_neg hl] at hst
        omega

lemma submit_openStage {input : Option TiffImage} {dir : String}
    {s : PipelineState} {j : Nat} {s' : PipelineState}
    (h : Step input dir s (Label.submit j) s') : openStage s.main = 1 := by
  cases h
  simp_all [openStage]

lemma openOk_before_submit {input : Option TiffImage} {dir : String}
    {s0 : PipelineState} {tr : List Label} {s : PipelineState}
    (hr : Reach input dir s0 tr s) :
    ∀ (j : Nat) (t1 t2 : List Label), tr = t1 ++ Label.submit j :: t2 →
      Label.openOk ∈ t1 ∨ openStage s0.main = 1 := by
  induction hr with
  | refl s => intro j t1 t2 h; exact absurd h (by simp)
  | head s l s1 tr s2 hstep hrr ih =>
      intro j t1 t2 h
      cases t1 with
      | nil =>
          simp only [List.nil_append, List.cons.injEq] at h
          obtain ⟨hl, -⟩ := h
          subst hl
          exact Or.inr (submit_openStage hstep)
      | cons a t1' =>
          simp only [List.cons_append, List.cons.injEq] at h
          obtain ⟨ha, htr⟩ := h
          rcases ih j t1' t2 htr with hmem | hstage
          · exact Or.inl (List.mem_cons_of_mem a hmem)
          · by_cases hl : l = Label.openOk
            · refine Or.inl ?_
              rw [← ha, hl]
              exact List.mem_cons_self _ _
            · right
              have hst := openStage_step hstep
              simp only [if_neg hl] at hst
              omega

lemma reach_append_split {input : Option TiffImage} {dir : String} :
    ∀ {a b : List Label} {s0 s : PipelineState},
      Reach input dir s0 (a ++ b) s →
      ∃ m, Reach input dir s0 a m ∧ Reach input dir m b s := by
  intro a
  induction a with
  | nil => intro b s0 s h; exact ⟨s0, Reach.refl s0, h⟩
  | cons l a ih =>
      intro b s0 s h
      cases h with
      | head _ _ s1 _ _ hstep hrr =>
          obtain ⟨m, h1, h2⟩ := ih hrr
          exact ⟨m, Reach.head s0 l s1 a m hstep h1, h2⟩

lemma no_step_from_finished {input : Option TiffImage} {dir : String}
    {files0 : List (String × List Nat)} {s : PipelineState} {l : Label}
    {s' : PipelineState} (hI : SysInv input dir files0 s)
    (hfin : s.main = MainPC.finished) (hs : Step input dir s l s') : False := by
  have hM := hI.main_inv
  unfold MainInv at hM
  rw [hfin] at hM
  obtain ⟨img, hin, ho, hd, hlen, hpn, hterm⟩ := hM
  cases hs with
  | mkdir hm => rw [hfin] at hm; exact MainPC.noConfusion hm
  | openFail hm hin2 => rw [hfin] at hm; exact MainPC.noConfusion hm
  | openOk img2 hm hin2 => rw [hfin] at hm; exact MainPC.noConfusion hm
  | submit img2 k hm hin2 hk => rw [hfin] at hm; exact MainPC.noConfusion hm
  | submitsDone img2 k hm hin2 hk => rw [hfin] at hm; exact MainPC.noConfusion hm
  | update img2 k hm hin2 hk => rw [hfin] at hm; exact MainPC.noConfusion hm
  | updatesDone img2 k hm hin2 hk => rw [hfin] at hm; exact MainPC.noConfusion hm
  | join hm hall => rw [hfin] at hm; exact MainPC.noConfusion hm
  | close hm => rw [hfin] at hm; exact MainPC.noConfusion hm
  | acquire j hj hl2 =>
      have := hterm _ (List.getElem?_mem hj)
      exact absurd this (by simp [JobPC.terminal])
  | seek j hj =>
      have := hterm _ (List.getElem?_mem hj)
      exact absurd this (by simp [JobPC.terminal])
  | decode img2 j p hj hin2 hp =>
      have := hterm _ (List.getElem?_mem hj)
      exact absurd this (by simp [JobPC.terminal])
  | decodeFail img2 j hj hin2 hp =>
      have := hterm _ (List.getElem?_mem hj)
      exact absurd this (by simp [JobPC.terminal])
  | release j f hj =>
      have := hterm _ (List.getElem?_mem hj)
      exact absurd this (by simp [JobPC.terminal])
  | releaseErr j hj =>
      have := hterm _ (List.getElem?_mem hj)
      exact absurd this (by simp [JobPC.terminal])
  | write j f hj =>
      have := hterm _ (List.getElem?_mem hj)
      exact absurd this (by simp [JobPC.terminal])

lemma close_last {input : Option TiffImage} {dir : String}
    {files0 : List (String × List Nat)} {tr : List Label} {s : PipelineState}
    (hr : Reach input dir (initState files0) tr s)
    (t1 t2 : List Label) (hdec : tr = t1 ++ Label.close :: t2) : t2 = [] := by
  subst hdec
  obtain ⟨m, h1, h2⟩ := reach_append_split hr
  cases h2 with
  | head _ _ s1 _ _ hstep hrr =>
      have hI1 : SysInv input dir files0 s1 :=
        sysInv_step (sysInv_reach h1 (sysInv_init input dir files0)) hstep
      have hfin : s1.main = MainPC.finished := by cases hstep; rfl
      cases hrr with
      | refl => rfl
      | head _ l2 s2 _ _ hstep2 _ =>
          exact (no_step_from_finished hI1 hfin hstep2).elim

lemma jobs_length_of_ne_submit {input : Option TiffImage} {dir : String}
    {s : PipelineState} {l : Label} {s' : PipelineState}
    (hs : Step input dir s l s') (hne : ∀ j, l ≠ Label.submit j) :
    s'.jobs.length = s.jobs.length := by
  cases hs with
  | submit img k hm hin hk => exact (hne k rfl).elim
  | mkdir hm => rfl
  | openFail hm hin => rfl
  | openOk img hm hin => rfl
  | submitsDone img k hm hin hk => rfl
  | update img k hm hin hk => rfl
  | updatesDone img k hm hin hk => rfl
  | join hm hall => rfl
  | close hm => rfl
  | acquire j hj hl => simp [List.length_set]
  | seek j hj => simp [List.length_set]
  | decode img j p hj hin hp => simp [List.length_set]
  | decodeFail img j hj hin hp => simp [List.length_set]
  | release j f hj => simp [List.length_set]
  | releaseErr j hje => simp [List.length_set]
  | write j f hj => simp [List.length_set]

lemma submit_main {input : Option TiffImage} {dir : String} {s : PipelineState}
    {j : Nat} {s' : PipelineState} (h : Step input dir s (Label.submit j) s') :
    s.main = MainPC.atSubmit j ∧ s'.jobs = s.jobs ++ [JobPC.ready] := by
  cases h
  exact ⟨by assumption, rfl⟩

lemma submit_jobs_length {input : Option TiffImage} {dir : String}
    {files0 : List (String × List Nat)} {s : PipelineState} {j : Nat}
    {s' : PipelineState} (hI : SysInv input dir files0 s)
    (hs : Step input dir s (Label.submit j) s') :
    s.jobs.length = j ∧ s'.jobs.length = j + 1 := by
  obtain ⟨hm, hjobs⟩ := submit_main hs
  have hM := hI.main_inv
  unfold MainInv at hM
  rw [hm] at hM
  obtain ⟨img', hin', ho, hd, hlen, hle, hp0⟩ := hM
  refine ⟨hlen, ?_⟩
  rw [hjobs, List.length_append, hlen]
  rfl

lemma count_submit_reach {input : Option TiffImage} {dir : String}
    {files0 : List (String × List Nat)} {s0 : PipelineState} {tr : List Label}
    {s : PipelineState} (hr : Reach input dir s0 tr s) :
    SysInv input dir files0 s0 →
    ∀ j, tr.count (Label.submit j) + (if j < s0.jobs.length then 1 else 0)
      = if j < s.jobs.length then 1 else 0 := by
  induction hr with
  | refl s => intro _ j; simp
  | head s l s1 tr s2 hstep hrr ih =>
      intro hI j
      have hI1 := sysInv_step hI hstep
      have ihj := ih hI1 j
      by_cases hl : l = Label.submit j
      · subst hl
        rw [List.count_cons_self]
        obtain ⟨hlen, hlen'⟩ := submit_jobs_length hI hstep
        rw [if_neg (by omega)]
        rw [if_pos (by omega)] at ihj
        omega
      · rw [List.count_cons_of_ne (fun he => hl he.symm)]
        by_cases hsub : ∃ k, l = Label.submit k
        · obtain ⟨k, hk⟩ := hsub
          subst hk
          obtain ⟨hlen, hlen'⟩ := submit_jobs_length hI hstep
          have hjk : j ≠ k := fun he => hl (by rw [he])
          rw [hlen'] at ihj
          rw [hlen]
          by_cases hjlt : j < k
          · rw [if_pos hjlt]
            rw [if_pos (by omega)] at ihj
            exact ihj
          · rw [if_neg hjlt]
            rw [if_neg (by omega)] at ihj
            exact ihj
        · have hlen := jobs_length_of_ne_submit hstep (fun k hk => hsub ⟨k, hk⟩)
          rw [hlen] at ihj
          exact ihj

lemma release_before_releasedOk {input : Option TiffImage} {dir : String}
    {s0 : PipelineState} {tr : List Label} {s : PipelineState}
    (hr : Reach input dir s0 tr s) :
    ∀ (j : Nat) (f : PageFrame), s.jobs[j]? = some (JobPC.releasedOk f) →
      Label.release j ∈ tr ∨ ∃ f', s0.jobs[j]? = some (JobPC.releasedOk f') := by
  induction hr with
  | refl s => intro j f h; exact Or.inr ⟨f, h⟩
  | head s l s1 tr s2 hstep hrr ih =>
      intro j f h
      rcases ih j f h with hmem | ⟨f', h1⟩
      · exact Or.inl (List.mem_cons_of_mem _ hmem)
      · by_cases hl : l = Label.release j
        · exact Or.inl (hl ▸ List.mem_cons_self _ _)
        · refine Or.inr ?_
          cases hstep with
          | mkdir hm => exact ⟨f', h1⟩
          | openFail hm hin => exact ⟨f', h1⟩
          | openOk img hm hin => exact ⟨f', h1⟩
          | submit img k hm hin hk =>
              rcases getElem?_concat_inv h1 with hold | ⟨_, hpc⟩
              · exact ⟨f', hold⟩
              · exact absurd hpc (by simp)
          | submitsDone img k hm hin hk => exact ⟨f', h1⟩
          | update img k hm hin hk => exact ⟨f', h1⟩
          | updatesDone img k hm hin hk => exact ⟨f', h1⟩
          | join hm hall => exact ⟨f', h1⟩
          | close hm => exact ⟨f', h1⟩
          | acquire k hj hlk =>
              rcases getElem?_set_inv h1 with ⟨_, hpc⟩ | ⟨_, hold⟩
              · exact absurd hpc (by simp)
              · exact ⟨f', hold⟩
          | seek k hj =>
              rcases getElem?_set_inv h1 with ⟨_, hpc⟩ | ⟨_, hold⟩
              · exact absurd hpc (by simp)
              · exact ⟨f', hold⟩
          | decode img k p hj hin hp =>
              rcases getElem?_set_inv h1 with ⟨_, hpc⟩ | ⟨_, hold⟩
              · exact absurd hpc (by simp)
              · exact ⟨f', hold⟩
          | decodeFail img k hj hin hp =>
              rcases getElem?_set_inv h1 with ⟨_, hpc⟩ | ⟨_, hold⟩
              · exact absurd hpc (by simp)
              · exact ⟨f', hold⟩
          | release k fk hj =>
              rcases getElem?_set_inv h1 with ⟨hjk, hpc⟩ | ⟨_, hold⟩
              · exact absurd (by rw [hjk]) hl
              · exact ⟨f', hold⟩
          | releaseErr k hj =>
              rcases getElem?_set_inv h1 with ⟨_, hpc⟩ | ⟨_, hold⟩
              · exact absurd hpc (by simp)
              · exact ⟨f', hold⟩
          | write k fk hj =>
              rcases getElem?_set_inv h1 with ⟨_, hpc⟩ | ⟨_, hold⟩
              · exact absurd hpc (by simp)
              · exact ⟨f', hold⟩

/-- Lookup in the output directory: first (most recent) write wins. -/
def fsLookup : List (String × List Nat) → String → Option (List Nat)
  | [], _ => none
  | e :: fs, n => if e.1 = n then some e.2 else fsLookup fs n

lemma fsLookup_eq_none {fs : List (String × List Nat)} {n : String}
    (h : n ∉ fs.map Prod.fst) : fsLookup fs n = none := by
  induction fs with
  | nil => rfl
  | cons e fs ih =>
      simp only [List.map_cons, List.mem_cons] at h
      push_neg at h
      simp only [fsLookup]
      rw [if_neg (fun he => h.1 he.symm)]
      exact ih h.2

lemma fsLookup_append_not_mem {l r : List (String × List Nat)} {n : String}
    (h : n ∉ l.map Prod.fst) : fsLookup (l ++ r) n = fsLookup r n := by
  induction l with
  | nil => rfl
  | cons e l ih =>
      simp only [List.map_cons, List.mem_cons] at h
      push_neg at h
      simp only [List.cons_append, fsLookup]
      rw [if_neg (fun he => h.1 he.symm)]
      exact ih h.2

lemma fsLookup_append_left {l r : List (String × List Nat)} {n : String}
    (h : n ∈ l.map Prod.fst) : fsLookup (l ++ r) n = fsLookup l n := by
  induction l with
  | nil => simp at h
  | cons e l ih =>
      simp only [List.cons_append, fsLookup]
      by_cases he : e.1 = n
      · rw [if_pos he, if_pos he]
      · rw [if_neg he, if_neg he]
        apply ih
        simp only [List.map_cons, List.mem_cons] at h
        rcases h with h | h
        · exact absurd h.symm he
        · exact h

lemma fsLookup_all_eq {fs : List (String × List Nat)} {n : String} {c : List Nat}
    (hmem : n ∈ fs.map Prod.fst) (hall : ∀ e ∈ fs, e.1 = n → e.2 = c) :
    fsLookup fs n = some c := by
  induction fs with
  | nil => simp at hmem
  | cons e fs ih =>
      simp only [fsLookup]
      by_cases he : e.1 = n
      · rw [if_pos he, hall e (List.mem_cons_self _ _) he]
      · rw [if_neg he]
        apply ih
        · simp only [List.map_cons, List.mem_cons] at hmem
          rcases hmem with h | h
          · exact absurd h.symm he
          · exact h
        · exact fun e2 he2 => hall e2 (List.mem_cons_of_mem _ he2)

lemma filesLog_lookup_doneOk {input : Option TiffImage} {dir : String}
    {files0 : List (String × List Nat)} {jobs : List JobPC}
    {files : List (String × List Nat)} {j : Nat} {img : TiffImage} {p : PageFrame}
    (hF : FilesLog input dir files0 jobs files) (hin : input = some img)
    (hj : jobs[j]? = some JobPC.doneOk) (hp : img.pages[j]? = some (some p)) :
    fsLookup files (jpegFilename dir j) = some (jpegEncode (convertRGB p)) := by
  obtain ⟨l, hfl, hmem, hcount⟩ := hF
  have hc1 : (l.map Prod.fst).count (jpegFilename dir j) = 1 := by
    rw [hcount j, if_pos hj]
  have hmemn : jpegFilename dir j ∈ l.map Prod.fst := by
    by_contra hnm
    rw [List.count_eq_zero_of_not_mem hnm] at hc1
    exact Nat.noConfusion hc1
  rw [hfl, fsLookup_append_left hmemn]
  apply fsLookup_all_eq hmemn
  intro e he hfst
  obtain ⟨k, p', img', hin', hp', hk, hee⟩ := hmem e he
  have hkj : k = j := by
    apply jpegFilename_injective dir
    rw [← hfst, hee]
  subst hkj
  rw [hin] at hin'
  have himg : img' = img := (Option.some.inj hin').symm
  subst himg
  rw [hp] at hp'
  have hpp : p' = p := (Option.some.inj (Option.some.inj hp')).symm
  subst hpp
  rw [hee]

lemma filesLog_lookup_notOk {input : Option TiffImage} {dir : String}
    {files0 : List (String × List Nat)} {jobs : List JobPC}
    {files : List (String × List Nat)} {j : Nat}
    (hF : FilesLog input dir files0 jobs files)
    (hj : ¬ jobs[j]? = some JobPC.doneOk) :
    fsLookup files (jpegFilename dir j) = fsLookup files0 (jpegFilename dir j) := by
  obtain ⟨l, hfl, hmem, hcount⟩ := hF
  have hc0 : (l.map Prod.fst).count (jpegFilename dir j) = 0 := by
    rw [hcount j, if_neg hj]
  have hnm : jpegFilename dir j ∉ l.map Prod.fst := List.count_eq_zero.mp hc0
  rw [hfl, fsLookup_append_not_mem hnm]

lemma finished_classify {img : TiffImage} {dir : String}
    {files0 : List (String × List Nat)} {s : PipelineState}
    (hI : SysInv (some img) dir files0 s) (hfin : s.main = MainPC.finished) :
    s.jobs.length = img.n_frames ∧
    ∀ (j : Nat), j < img.n_frames →
      (∀ p, img.pages[j]? = some (some p) → s.jobs[j]? = some JobPC.doneOk) ∧
      (img.pages[j]? = some none → s.jobs[j]? = some JobPC.doneErr) := by
  have hM := hI.main_inv
  unfold MainInv at hM
  rw [hfin] at hM
  obtain ⟨img', hin', ho, hd, hlen, hpn, hterm⟩ := hM
  rw [← Option.some.inj hin'] at hlen hpn
  refine ⟨hlen, ?_⟩
  intro j hj
  have hjlt : j < s.jobs.length := by rw [hlen]; exact hj
  have hjget : s.jobs[j]? = some (s.jobs[j]) := List.getElem?_eq_getElem hjlt
  set pc := s.jobs[j] with hpc
  have hpcterm : pc.terminal = true := hterm pc (List.getElem?_mem hjget)
  constructor
  · intro p hp
    cases hcase : pc with
    | doneOk => rw [hjget, hcase]
    | doneErr =>
        obtain ⟨img2, hin2, hp2⟩ := hI.jobs_inv.err_pages j (Or.inr (by rw [hjget, hcase]))
        rw [← Option.some.inj hin2] at hp2
        rw [hp] at hp2
        exact Option.noConfusion (Option.some.inj hp2)
    | ready => rw [hcase] at hpcterm; exact absurd hpcterm (by simp [JobPC.terminal])
    | locked => rw [hcase] at hpcterm; exact absurd hpcterm (by simp [JobPC.terminal])
    | seeked => rw [hcase] at hpcterm; exact absurd hpcterm (by simp [JobPC.terminal])
    | decoded f => rw [hcase] at hpcterm; exact absurd hpcterm (by simp [JobPC.terminal])
    | releasedOk f => rw [hcase] at hpcterm; exact absurd hpcterm (by simp [JobPC.terminal])
    | erring => rw [hcase] at hpcterm; exact absurd hpcterm (by simp [JobPC.terminal])
  · intro hp
    cases hcase : pc with
    | doneErr => rw [hjget, hcase]
    | doneOk =>
        obtain ⟨img2, p2, hin2, hp2⟩ := hI.jobs_inv.ok_pages j (by rw [hjget, hcase])
        rw [← Option.some.inj hin2] at hp2
        rw [hp] at hp2
        exact Option.noConfusion (Option.some.inj hp2)
    | ready => rw [hcase] at hpcterm; exact absurd hpcterm (by simp [JobPC.terminal])
    | locked => rw [hcase] at hpcterm; exact absurd hpcterm (by simp [JobPC.terminal])
    | seeked => rw [hcase] at hpcterm; exact absurd hpcterm (by simp [JobPC.terminal])
    | decoded f => rw [hcase] at hpcterm; exact absurd hpcterm (by simp [JobPC.terminal])
    | releasedOk f => rw [hcase] at hpcterm; exact absurd hpcterm (by simp [JobPC.terminal])
    | erring => rw [hcase] at hpcterm; exact absurd hpcterm (by simp [JobPC.terminal])

lemma filesLog_names_perm {img : TiffImage} {dir : String} {jobs : List JobPC}
    {files : List (String × List Nat)}
    (hF : FilesLog (some img) dir [] jobs files)
    (hall : ∀ (j : Nat), j < jobs.length → jobs[j]? = some JobPC.doneOk)
    (hlen : jobs.length = img.n_frames) :
    List.Perm (files.map Prod.fst) ((List.range img.n_frames).map (jpegFilename dir)) := by
  obtain ⟨l, hfl, hmem, hcount⟩ := hF
  rw [List.append_nil] at hfl
  subst hfl
  rw [List.perm_iff_count]
  intro x
  have hnd : ((List.range img.n_frames).map (jpegFilename dir)).Nodup :=
    List.Nodup.map (jpegFilename_injective dir) (List.nodup_range _)
  by_cases hx : ∃ j, j < img.n_frames ∧ x = jpegFilename dir j
  · obtain ⟨j, hjN, rfl⟩ := hx
    rw [hcount j, if_pos (hall j (by rw [hlen]; exact hjN))]
    have hmemx : jpegFilename dir j ∈ (List.range img.n_frames).map (jpegFilename dir) :=
      List.mem_map.mpr ⟨j, List.mem_range.mpr hjN, rfl⟩
    rw [List.count_eq_one_of_mem hnd hmemx]
  · rw [List.count_eq_zero_of_not_mem, List.count_eq_zero_of_not_mem]
    · intro hmemx
      obtain ⟨j, hjr, hje⟩ := List.mem_map.mp hmemx
      exact hx ⟨j, List.mem_range.mp hjr, hje.symm⟩
    · intro hmemx
      obtain ⟨e, hel, hfst⟩ := List.mem_map.mp hmemx
      obtain ⟨k, p, img', hin', hp', hk, hee⟩ := hmem e hel
      obtain ⟨hklt, _⟩ := List.getElem?_eq_some_iff.mp hk
      refine hx ⟨k, by rw [← hlen]; exact hklt, ?_⟩
      rw [← hfst, hee]

/-- The observable return value of `tiff2jpeg`: the Python function returns
`None` on normal completion, and on a bad input path the `Image.open`
exception propagates; it returns nothing else. -/
inductive PyReturn where
  | noneValue
  | raisedOpenError
deriving DecidableEq

/-- Return-value observation of a terminated run. -/
def resultOf (s : PipelineState) : Option PyReturn :=
  match s.main with
  | .finished => some .noneValue
  | .failedOpen => some .raisedOpenError
  | _ => none

/-- A sample decoded page, distinct per index. -/
def pageFrame (k : Nat) : PageFrame :=
  { mode := "I", pix := [k] }

/-- A one-page TIFF. -/
def img1 : TiffImage := ⟨[some (pageFrame 0)]⟩

/-- A zero-page container. -/
def img0 : TiffImage := ⟨[]⟩

/-- Five pages, all decodable. -/
def img5good : TiffImage :=
  ⟨[some (pageFrame 0), some (pageFrame 1), some (pageFrame 2),
    some (pageFrame 3), some (pageFrame 4)]⟩

/-- Five pages with page 3 corrupt. -/
def img5bad : TiffImage :=
  ⟨[some (pageFrame 0), some (pageFrame 1), some (pageFrame 2), none,
    some (pageFrame 4)]⟩

/-- Two pages with page 0 corrupt. -/
def img2bad0 : TiffImage := ⟨[none, some (pageFrame 1)]⟩

/-- The actions of one successful job, run to completion. -/
def jobLabels (j : Nat) : List Label :=
  [Label.acquire j, Label.seek j, Label.decode j, Label.release j, Label.write j]

/-- The actions of one job whose page decode raises. -/
def jobLabelsFail (j : Nat) : List Label :=
  [Label.acquire j, Label.seek j, Label.decodeFail j, Label.releaseErr j]

/-- A complete schedule for the one-page run. -/
def tr1 : List Label :=
  [Label.mkdir, Label.openOk, Label.submit 0, Label.submitsDone] ++ jobLabels 0 ++
  [Label.update, Label.updatesDone, Label.join, Label.close]

def s1fin : PipelineState :=
  (runLabels (some img1) "out" (initState []) tr1).getD (initState [])

lemma run_tr1 : runLabels (some img1) "out" (initState []) tr1 = some s1fin := rfl

lemma reach_tr1 : Reach (some img1) "out" (initState []) tr1 s1fin :=
  runLabels_sound run_tr1

lemma s1fin_main : s1fin.main = MainPC.finished := rfl

/-- A complete schedule for the zero-page run. -/
def tr0 : List Label :=
  [Label.mkdir, Label.openOk, Label.submitsDone, Label.updatesDone,
   Label.join, Label.close]

def s0fin : PipelineState :=
  (runLabels (some img0) "out" (initState []) tr0).getD (initState [])

lemma run_tr0 : runLabels (some img0) "out" (initState []) tr0 = some s0fin := rfl

lemma reach_tr0 : Reach (some img0) "out" (initState []) tr0 s0fin :=
  runLabels_sound run_tr0

lemma s0fin_main : s0fin.main = MainPC.finished := rfl

/-- The failed-open run. -/
def trFail : List Label := [Label.mkdir, Label.openFail]

def sFail : PipelineState :=
  (runLabels none "out" (initState []) trFail).getD (initState [])

lemma run_trFail : runLabels none "out" (initState []) trFail = some sFail := rfl

lemma reach_trFail : Reach none "out" (initState []) trFail sFail :=
  runLabels_sound run_trFail

/-- A complete schedule for the five-good-pages run. -/
def tr5good : List Label :=
  [Label.mkdir, Label.openOk, Label.submit 0, Label.submit 1, Label.submit 2,
   Label.submit 3, Label.submit 4, Label.submitsDone] ++
  jobLabels 0 ++ jobLabels 1 ++ jobLabels 2 ++ jobLabels 3 ++ jobLabels 4 ++
  [Label.update, Label.update, Label.update, Label.update, Label.update,
   Label.updatesDone, Label.join, Label.close]

def s5goodFin : PipelineState :=
  (runLabels (some img5good) "out" (initState []) tr5good).getD (initState [])

lemma run_tr5good :
    runLabels (some img5good) "out" (initState []) tr5good = some s5goodFin := rfl

lemma reach_tr5good : Reach (some img5good) "out" (initState []) tr5good s5goodFin :=
  runLabels_sound run_tr5good

lemma s5goodFin_main : s5goodFin.main = MainPC.finished := rfl

/-- A complete schedule for the five-pages-one-corrupt run. -/
def tr5bad : List Label :=
  [Label.mkdir, Label.openOk, Label.submit 0, Label.submit 1, Label.submit 2,
   Label.submit 3, Label.submit 4, Label.submitsDone] ++
  jobLabels 0 ++ jobLabels 1 ++ jobLabels 2 ++ jobLabelsFail 3 ++ jobLabels 4 ++
  [Label.update, Label.update, Label.update, Label.update, Label.update,
   Label.updatesDone, Label.join, Label.close]

def s5badFin : PipelineState :=
  (runLabels (some img5bad) "out" (initState []) tr5bad).getD (initState [])

lemma run_tr5bad :
    runLabels (some img5bad) "out" (initState []) tr5bad = some s5badFin := rfl

lemma reach_tr5bad : Reach (some img5bad) "out" (initState []) tr5bad s5badFin :=
  runLabels_sound run_tr5bad

lemma s5badFin_main : s5badFin.main = MainPC.finished := rfl

/-- A prefix schedule leaving job 0 inside the exclusive section. -/
def trLock : List Label :=
  [Label.mkdir, Label.openOk, Label.submit 0, Label.submitsDone, Label.acquire 0]

def sLock : PipelineState :=
  (runLabels (some img1) "out" (initState []) trLock).getD (initState [])

lemma run_trLock : runLabels (some img1) "out" (initState []) trLock = some sLock := rfl

lemma reach_trLock : Reach (some img1) "out" (initState []) trLock sLock :=
  runLabels_sound run_trLock

/-- A prefix schedule leaving job 0 ready to write, lock already released. -/
def trPreWrite : List Label :=
  [Label.mkdir, Label.openOk, Label.submit 0, Label.submitsDone, Label.acquire 0,
   Label.seek 0, Label.decode 0, Label.release 0]

def sPreWrite : PipelineState :=
  (runLabels (some img1) "out" (initState []) trPreWrite).getD (initState [])

lemma run_trPreWrite :
    runLabels (some img1) "out" (initState []) trPreWrite = some sPreWrite := rfl

lemma reach_trPreWrite : Reach (some img1) "out" (initState []) trPreWrite sPreWrite :=
  runLabels_sound run_trPreWrite

/-- The schedule where the main thread exhausts the progress-bar loop before
the single job has even started. -/
def trBarAhead : List Label :=
  [Label.mkdir, Label.openOk, Label.submit 0, Label.submitsDone, Label.update]

def sBarAhead : PipelineState :=
  (runLabels (some img1) "out" (initState []) trBarAhead).getD (initState [])

lemma run_trBarAhead :
    runLabels (some img1) "out" (initState []) trBarAhead = some sBarAhead := rfl

lemma reach_trBarAhead : Reach (some img1) "out" (initState []) trBarAhead sBarAhead :=
  runLabels_sound run_trBarAhead

/-- A prefix schedule leaving job 0 of the two-page image in the erring state
(decode raised inside the `with lock:` block, release not yet run). -/
def trErr : List Label :=
  [Label.mkdir, Label.openOk, Label.submit 0, Label.submit 1, Label.submitsDone,
   Label.acquire 0, Label.seek 0, Label.decodeFail 0]

def sErr : PipelineState :=
  (runLabels (some img2bad0) "out" (initState []) trErr).getD (initState [])

lemma run_trErr : runLabels (some img2bad0) "out" (initState []) trErr = some sErr := rfl

lemma reach_trErr : Reach (some img2bad0) "out" (initState []) trErr sErr :=
  runLabels_sound run_trErr

/-- The second, idempotent run over the one-page image, starting from the
files left by the first run. -/
def s1fin2 : PipelineState :=
  (runLabels (some img1) "out" (initState s1fin.files) tr1).getD (initState [])

lemma run_tr1_again :
    runLabels (some img1) "out" (initState s1fin.files) tr1 = some s1fin2 := rfl

lemma reach_tr1_again : Reach (some img1) "out" (initState s1fin.files) tr1 s1fin2 :=
  runLabels_sound run_tr1_again

lemma s1fin2_main : s1fin2.main = MainPC.finished := rfl

lemma seek_inv {input : Option TiffImage} {dir : String} {s : PipelineState}
    {j : Nat} {s' : PipelineState} (h : Step input dir s (Label.seek j) s') :
    s.jobs[j]? = some JobPC.locked := by
  cases h
  assumption

lemma decode_inv {input : Option TiffImage} {dir : String} {s : PipelineState}
    {j : Nat} {s' : PipelineState} (h : Step input dir s (Label.decode j) s') :
    s.jobs[j]? = some JobPC.seeked := by
  cases h
  assumption

lemma decodeFail_inv {input : Option TiffImage} {dir : String} {s : PipelineState}
    {j : Nat} {s' : PipelineState} (h : Step input dir s (Label.decodeFail j) s') :
    s.jobs[j]? = some JobPC.seeked := by
  cases h
  assumption

lemma write_inv {input : Option TiffImage} {dir : String} {s : PipelineState}
    {j : Nat} {s' : PipelineState} (h : Step input dir s (Label.write j) s') :
    ∃ f, s.jobs[j]? = some (JobPC.releasedOk f) := by
  cases h
  exact ⟨_, by assumption⟩

/-- C1: in every reachable state of the pipeline, at most one Job is inside
the exclusive section (the `with lock:` block guarding the seek and decode of
the shared image); a Job can take the `acquire` step only when no thread
holds the lock (so an entering Job blocks until the holder releases), and
after the step it is the holder. Any number of Jobs may be in their
encode/write phase concurrently, which the statement reflects by restricting
only the `inExcl` phases. -/
theorem c1_mutual_exclusion (input : Option TiffImage) (dir : String)
    (files0 : List (String × List Nat)) (tr : List Label) (s : PipelineState)
    (hr : Reach input dir (initState files0) tr s) :
    (∀ (j k : Nat) (pj pk : JobPC), s.jobs[j]? = some pj → s.jobs[k]? = some pk →
      pj.inExcl = true → pk.inExcl = true → j = k) ∧
    (∀ (j : Nat) (s' : PipelineState), Step input dir s (Label.acquire j) s' →
      s.lockHolder = none ∧ s'.lockHolder = some j) := by
  have hI := sysInv_reach hr (sysInv_init input dir files0)
  constructor
  · intro j k pj pk hj hk hje hke
    have h1 := hI.jobs_inv.lock_excl j pj hj hje
    have h2 := hI.jobs_inv.lock_excl k pk hk hke
    rw [h1] at h2
    exact Option.some.inj h2
  · intro j s' hs
    cases hs
    exact ⟨by assumption, rfl⟩

theorem c1_mutual_exclusion_witness :
    Reach (some img1) "out" (initState []) trLock sLock ∧
    ((∀ (j k : Nat) (pj pk : JobPC), sLock.jobs[j]? = some pj →
        sLock.jobs[k]? = some pk → pj.inExcl = true → pk.inExcl = true → j = k) ∧
     (∀ (j : Nat) (s' : PipelineState),
        Step (some img1) "out" sLock (Label.acquire j) s' →
        sLock.lockHolder = none ∧ s'.lockHolder = some j)) :=
  ⟨reach_trLock, c1_mutual_exclusion (some img1) "out" [] trLock sLock reach_trLock⟩

/-- C5: in every execution, every seek step and every decode step (successful
or failing) of Job `j` happens while Job `j` holds the lock, and the write
step of Job `j` happens while `j` does not hold the lock and strictly after a
release step of `j` occurred in the trace — no Job holds the lock while
encoding/writing its output file. -/
theorem c5_seek_decode_locked_write_unlocked (input : Option TiffImage)
    (dir : String) (files0 : List (String × List Nat)) (tr : List Label)
    (s : PipelineState) (l : Label) (s' : PipelineState)
    (hr : Reach input dir (initState files0) tr s)
    (hs : Step input dir s l s') :
    (∀ j : Nat, l = Label.seek j → s.lockHolder = some j) ∧
    (∀ j : Nat, l = Label.decode j ∨ l = Label.decodeFail j →
      s.lockHolder = some j) ∧
    (∀ j : Nat, l = Label.write j →
      s.lockHolder ≠ some j ∧ Label.release j ∈ tr) := by
  have hI := sysInv_reach hr (sysInv_init input dir files0)
  refine ⟨?_, ?_, ?_⟩
  · intro j hl
    subst hl
    exact hI.jobs_inv.lock_excl j JobPC.locked (seek_inv hs) rfl
  · intro j hl
    rcases hl with hl | hl <;> subst hl
    · exact hI.jobs_inv.lock_excl j JobPC.seeked (decode_inv hs) rfl
    · exact hI.jobs_inv.lock_excl j JobPC.seeked (decodeFail_inv hs) rfl
  · intro j hl
    subst hl
    obtain ⟨f, hjw⟩ := write_inv hs
    constructor
    · intro hcon
      obtain ⟨pc, hpc, hex⟩ := hI.jobs_inv.holder_excl j hcon
      rw [hjw] at hpc
      rw [← Option.some.inj hpc] at hex
      exact absurd hex (by simp [JobPC.inExcl])
    · rcases release_before_releasedOk hr j f hjw with h | ⟨f', h0⟩
      · exact h
      · simp [initState] at h0

def sAfterWrite : PipelineState :=
  (stepFn (some img1) "out" sPreWrite (Label.write 0)).getD sPreWrite

lemma step_write0 : Step (some img1) "out" sPreWrite (Label.write 0) sAfterWrite :=
  stepFn_sound rfl

theorem c5_seek_decode_locked_write_unlocked_witness :
    Reach (some img1) "out" (initState []) trPreWrite sPreWrite ∧
    Step (some img1) "out" sPreWrite (Label.write 0) sAfterWrite ∧
    (sPreWrite.lockHolder ≠ some 0 ∧ Label.release 0 ∈ trPreWrite) :=
  ⟨reach_trPreWrite, step_write0,
    (c5_seek_decode_locked_write_unlocked (some img1) "out" [] trPreWrite sPreWrite
      (Label.write 0) sAfterWrite reach_trPreWrite step_write0).2.2 0 rfl⟩

/-- C9: in every reachable state in which a Job raised inside the
`with lock:` block (state `erring`), that Job is still the lock holder, its
release step is enabled unconditionally and leads to a state where the lock
is free, all other Jobs are untouched, and any ready Job can then enter the
exclusive section — a failing page never leaves the lock held. -/
theorem c9_lock_released_on_error (input : Option TiffImage) (dir : String)
    (files0 : List (String × List Nat)) (tr : List Label) (s : PipelineState)
    (hr : Reach input dir (initState files0) tr s) :
    ∀ j : Nat, s.jobs[j]? = some JobPC.erring →
      s.lockHolder = some j ∧
      ∃ s', Step input dir s (Label.releaseErr j) s' ∧ s'.lockHolder = none ∧
        (∀ k : Nat, k ≠ j → s'.jobs[k]? = s.jobs[k]?) ∧
        (∀ k : Nat, s'.jobs[k]? = some JobPC.ready →
          ∃ s'', Step input dir s' (Label.acquire k) s'') := by
  have hI := sysInv_reach hr (sysInv_init input dir files0)
  intro j hj
  refine ⟨hI.jobs_inv.lock_excl j JobPC.erring hj rfl, ?_⟩
  refine ⟨_, Step.releaseErr s j hj, rfl, ?_, ?_⟩
  · intro k hk
    exact List.getElem?_set_ne (fun he => hk he.symm)
  · intro k hk
    exact ⟨_, Step.acquire _ k hk rfl⟩

theorem c9_lock_released_on_error_witness :
    Reach (some img2bad0) "out" (initState []) trErr sErr ∧
    sErr.jobs[0]? = some JobPC.erring ∧
    (sErr.lockHolder = some 0 ∧
     ∃ s', Step (some img2bad0) "out" sErr (Label.releaseErr 0) s' ∧
       s'.lockHolder = none ∧
       (∀ k : Nat, k ≠ 0 → s'.jobs[k]? = sErr.jobs[k]?) ∧
       (∀ k : Nat, s'.jobs[k]? = some JobPC.ready →
         ∃ s'', Step (some img2bad0) "out" s' (Label.acquire k) s'')) :=
  ⟨reach_trErr, rfl,
    c9_lock_released_on_error (some img2bad0) "out" [] trErr sErr reach_trErr 0 rfl⟩

/-- C10: the index-to-filename mapping `i ↦ os.path.join(dir, f"{i:05d}.jpg")`
is injective over all natural indices — zero-padding is only a minimum width,
so names above 99999 grow longer yet remain unique, and no two Jobs of a run
write to the same output path. -/
theorem c10_filename_injective (dir : String) (i j : Nat) (hne : i ≠ j) :
    jpegFilename dir i ≠ jpegFilename dir j :=
  fun h => hne (jpegFilename_injective dir h)

theorem c10_filename_injective_witness :
    (0 : Nat) ≠ 100000 ∧ jpegFilename "out" 0 ≠ jpegFilename "out" 100000 :=
  ⟨by decide, c10_filename_injective "out" 0 100000 (by decide)⟩

/-- C2 (code bug): the progress bar is advanced once per submitted future by
the loop `for _ in futures: pbar.update(1)`, which never waits on a future;
there is a reachable state of the one-page run in which the progress counter
already equals `n_frames` while the single Job has not even started (so zero
Jobs have finished), contradicting the claim that the counter never exceeds
the number of finished Jobs and is mutated by a completion-observation step. -/
theorem c2_progress_bar_runs_ahead :
    Reach (some img1) "out" (initState []) trBarAhead sBarAhead ∧
    sBarAhead.pbar = img1.n_frames ∧
    sBarAhead.jobs = [JobPC.ready] ∧
    (∀ pc ∈ sBarAhead.jobs, pc.terminal = false) :=
  ⟨reach_trBarAhead, rfl, rfl, by decide⟩

lemma none_jobs_nil {dir : String} {files0 : List (String × List Nat)}
    {s : PipelineState} (hI : SysInv none dir files0 s) : s.jobs = [] := by
  have hM := hI.main_inv
  unfold MainInv at hM
  cases hsm : s.main <;> rw [hsm] at hM
  case atMkdir => exact hM.2.1
  case atOpen => exact hM.2.1
  case failedOpen => exact hM.2.2.1
  case atSubmit k =>
      obtain ⟨img, hin, -⟩ := hM
      exact Option.noConfusion hin
  case atUpdate k =>
      obtain ⟨img, hin, -⟩ := hM
      exact Option.noConfusion hin
  case atJoin =>
      obtain ⟨img, hin, -⟩ := hM
      exact Option.noConfusion hin
  case atClose =>
      obtain ⟨img, hin, -⟩ := hM
      exact Option.noConfusion hin
  case finished =>
      obtain ⟨img, hin, -⟩ := hM
      exact Option.noConfusion hin

lemma none_step_label {dir : String} {files0 : List (String × List Nat)}
    {s : PipelineState} {l : Label} {s' : PipelineState}
    (hI : SysInv none dir files0 s) (hs : Step none dir s l s') :
    l = Label.mkdir ∨ l = Label.openFail := by
  have hnil := none_jobs_nil hI
  have hM := hI.main_inv
  cases hs with
  | mkdir hm => exact Or.inl rfl
  | openFail hm hin => exact Or.inr rfl
  | openOk img hm hin => exact Option.noConfusion hin
  | submit img k hm hin hk => exact Option.noConfusion hin
  | submitsDone img k hm hin hk => exact Option.noConfusion hin
  | update img k hm hin hk => exact Option.noConfusion hin
  | updatesDone img k hm hin hk => exact Option.noConfusion hin
  | join hm hall =>
      unfold MainInv at hM
      rw [hm] at hM
      obtain ⟨img, hin, -⟩ := hM
      exact Option.noConfusion hin
  | close hm =>
      unfold MainInv at hM
      rw [hm] at hM
      obtain ⟨img, hin, -⟩ := hM
      exact Option.noConfusion hin
  | acquire j hj hl => rw [hnil] at hj; exact absurd hj (by simp)
  | seek j hj => rw [hnil] at hj; exact absurd hj (by simp)
  | decode img j p hj hin hp => exact Option.noConfusion hin
  | decodeFail img j hj hin hp => exact Option.noConfusion hin
  | release j f hj => rw [hnil] at hj; exact absurd hj (by simp)
  | releaseErr j hj => rw [hnil] at hj; exact absurd hj (by simp)
  | write j f hj => rw [hnil] at hj; exact absurd hj (by simp)

lemma none_reach_labels {dir : String} {files0 : List (String × List Nat)}
    {s0 : PipelineState} {tr : List Label} {s : PipelineState}
    (hr : Reach none dir s0 tr s) :
    SysInv none dir files0 s0 → ∀ l ∈ tr, l = Label.mkdir ∨ l = Label.openFail := by
  induction hr with
  | refl s => intro _ l hl; exact absurd hl (by simp)
  | head s l s1 tr s2 hstep hrr ih =>
      intro hI l2 hl2
      rcases List.mem_cons.mp hl2 with hl2e | hmem
      · rw [hl2e]
        exact none_step_label hI hstep
      · exact ih (sysInv_step hI hstep) l2 hmem

/-- C7: if the input path is invalid, the run terminates in the failed-open
state: the output directory was created (its creation precedes the open), no
file was written by this run, no Job was ever enqueued (every step of the
trace is the mkdir or the failing open), the progress counter is untouched,
and the observable outcome is the propagated open error. -/
theorem c7_open_failure (dir : String) (files0 : List (String × List Nat))
    (tr : List Label) (s : PipelineState)
    (hr : Reach none dir (initState files0) tr s)
    (hfin : s.main = MainPC.failedOpen) :
    s.dirCreated = true ∧ s.files = files0 ∧ s.jobs = [] ∧ s.pbar = 0 ∧
    resultOf s = some PyReturn.raisedOpenError ∧
    ∀ l ∈ tr, l = Label.mkdir ∨ l = Label.openFail := by
  have hI := sysInv_reach hr (sysInv_init none dir files0)
  have hM := hI.main_inv
  unfold MainInv at hM
  rw [hfin] at hM
  obtain ⟨hin, ho, hjobs, hpb, hdc⟩ := hM
  refine ⟨hdc, ?_, hjobs, hpb, by unfold resultOf; rw [hfin], ?_⟩
  · obtain ⟨l, hfl, hmem, hcount⟩ := hI.files_log
    have hl : l = [] := by
      cases l with
      | nil => rfl
      | cons e l' =>
          obtain ⟨k, p, img, hin2, -⟩ := hmem e (List.mem_cons_self _ _)
          exact Option.noConfusion hin2
    rw [hl] at hfl
    simpa using hfl
  · exact none_reach_labels hr (sysInv_init none dir files0)

theorem c7_open_failure_witness :
    Reach none "out" (initState []) trFail sFail ∧
    sFail.main = MainPC.failedOpen ∧
    (sFail.dirCreated = true ∧ sFail.files = [] ∧ sFail.jobs = [] ∧
     sFail.pbar = 0 ∧ resultOf sFail = some PyReturn.raisedOpenError ∧
     ∀ l ∈ trFail, l = Label.mkdir ∨ l = Label.openFail) :=
  ⟨reach_trFail, rfl, c7_open_failure "out" [] trFail sFail reach_trFail rfl⟩

/-- C6: in every completed run over a valid container, the image is opened
exactly once and closed exactly once, every Job submission happens after the
open (the page count having been read at open time), the close is the very
last event of the trace (so no Job touches the handle after it is closed),
and every dispatched Job has terminated by the time of the close. -/
theorem c6_open_close_lifecycle (input : Option TiffImage) (dir : String)
    (files0 : List (String × List Nat)) (tr : List Label) (s : PipelineState)
    (hr : Reach input dir (initState files0) tr s)
    (hfin : s.main = MainPC.finished) :
    tr.count Label.openOk = 1 ∧ tr.count Label.close = 1 ∧
    (∀ (j : Nat) (t1 t2 : List Label), tr = t1 ++ Label.submit j :: t2 →
      Label.openOk ∈ t1) ∧
    (∀ (t1 t2 : List Label), tr = t1 ++ Label.close :: t2 → t2 = []) ∧
    (∀ pc ∈ s.jobs, pc.terminal = true) := by
  have hI := sysInv_reach hr (sysInv_init input dir files0)
  have hM := hI.main_inv
  unfold MainInv at hM
  rw [hfin] at hM
  obtain ⟨img, hin, ho, hd, hlen, hpn, hterm⟩ := hM
  refine ⟨?_, ?_, ?_, ?_, hterm⟩
  · have h := count_openOk_reach hr
    rw [hfin] at h
    simpa [initState, openStage] using h
  · have h := count_close_reach hr
    rw [hfin] at h
    simpa [initState, closeStage] using h
  · intro j t1 t2 hdec
    rcases openOk_before_submit hr j t1 t2 hdec with h | h
    · exact h
    · simp [initState, openStage] at h
  · exact fun t1 t2 hdec => close_last hr t1 t2 hdec

theorem c6_open_close_lifecycle_witness :
    Reach (some img1) "out" (initState []) tr1 s1fin ∧
    s1fin.main = MainPC.finished ∧
    (tr1.count Label.openOk = 1 ∧ tr1.count Label.close = 1 ∧
     (∀ (j : Nat) (t1 t2 : List Label), tr1 = t1 ++ Label.submit j :: t2 →
       Label.openOk ∈ t1) ∧
     (∀ (t1 t2 : List Label), tr1 = t1 ++ Label.close :: t2 → t2 = []) ∧
     (∀ pc ∈ s1fin.jobs, pc.terminal = true)) :=
  ⟨reach_tr1, s1fin_main,
    c6_open_close_lifecycle (some img1) "out" [] tr1 s1fin reach_tr1 s1fin_main⟩

/-- C4: for every valid container whose pages are all decodable, every
completed run enqueues exactly one Job per index `i` in `[0, n_frames)` (the
trace has exactly one submit event per such index and none beyond), and the
output directory ends up with exactly `n_frames` files whose names are a
permutation of `00000.jpg … {N-1:05d}.jpg` joined to the output folder —
names follow page order regardless of completion order; `n_frames = 1` gives
exactly the one file of index 0, and `n_frames = 0` gives zero files with a
normally terminating run. -/
theorem c4_one_file_per_page (img : TiffImage) (dir : String) (tr : List Label)
    (s : PipelineState) (hgood : ∀ o ∈ img.pages, o ≠ none)
    (hr : Reach (some img) dir (initState []) tr s)
    (hfin : s.main = MainPC.finished) :
    s.jobs.length = img.n_frames ∧
    (∀ j : Nat, tr.count (Label.submit j) = if j < img.n_frames then 1 else 0) ∧
    List.Perm (s.files.map Prod.fst)
      ((List.range img.n_frames).map (jpegFilename dir)) ∧
    s.files.length = img.n_frames := by
  have hI := sysInv_reach hr (sysInv_init (some img) dir [])
  obtain ⟨hlen, hclass⟩ := finished_classify hI hfin
  have hall : ∀ j : Nat, j < s.jobs.length → s.jobs[j]? = some JobPC.doneOk := by
    intro j hj
    have hjN : j < img.n_frames := by rw [← hlen]; exact hj
    have hpj : j < img.pages.length := hjN
    have hget : img.pages[j]? = some (img.pages[j]) := List.getElem?_eq_getElem hpj
    cases hcase : img.pages[j] with
    | none =>
        have := hgood _ (List.getElem?_mem hget)
        rw [hcase] at this
        exact absurd rfl this
    | some p =>
        exact (hclass j hjN).1 p (by rw [hget, hcase])
  have hperm := filesLog_names_perm hI.files_log hall hlen
  refine ⟨hlen, ?_, hperm, ?_⟩
  · intro j
    have h := count_submit_reach hr (sysInv_init (some img) dir []) j
    simp only [initState, List.length_nil, Nat.not_lt_zero, if_false,
      Nat.add_zero] at h
    rw [hlen] at h
    exact h
  · have h := hperm.length_eq
    simpa using h

theorem c4_one_file_per_page_witness :
    (∀ o ∈ img1.pages, o ≠ none) ∧ s1fin.main = MainPC.finished ∧
    (s1fin.jobs.length = img1.n_frames ∧
     (∀ j : Nat, tr1.count (Label.submit j) = if j < img1.n_frames then 1 else 0) ∧
     List.Perm (s1fin.files.map Prod.fst)
       ((List.range img1.n_frames).map (jpegFilename "out")) ∧
     s1fin.files.length = img1.n_frames) ∧
    ((∀ o ∈ img0.pages, o ≠ none) ∧ s0fin.main = MainPC.finished ∧
     s0fin.files.length = img0.n_frames) :=
  ⟨by decide, s1fin_main,
   c4_one_file_per_page img1 "out" tr1 s1fin (by decide) reach_tr1 s1fin_main,
   by decide, s0fin_main,
   (c4_one_file_per_page img0 "out" tr0 s0fin (by decide) reach_tr0 s0fin_main).2.2.2⟩

/-- C3 counterexample: `tiff2jpeg` returns no Summary. Two completed runs —
five good pages versus five pages with page 3 corrupt — produce the same
observable return value (`None`), although the first has five successful
Jobs and no failure and the second has four successes and one failure; no
value returned by the function reports the per-page successes and failures. -/
theorem c3_no_summary_counterexample :
    Reach (some img5good) "out" (initState []) tr5good s5goodFin ∧
    Reach (some img5bad) "out" (initState []) tr5bad s5badFin ∧
    s5goodFin.main = MainPC.finished ∧ s5badFin.main = MainPC.finished ∧
    s5goodFin.jobs.count JobPC.doneOk = 5 ∧
    s5goodFin.jobs.count JobPC.doneErr = 0 ∧
    s5badFin.jobs.count JobPC.doneOk = 4 ∧
    s5badFin.jobs.count JobPC.doneErr = 1 ∧
    resultOf s5goodFin = resultOf s5badFin :=
  ⟨reach_tr5good, reach_tr5bad, rfl, rfl, by decide, by decide, by decide,
   by decide, rfl⟩

/-- C3 (amended): a single Job's failure never aborts sibling Jobs — in every
completed run each page's Job reaches a terminal state, every decodable page
ends in `doneOk` with its JPEG present in the output directory, and every
corrupt page ends in `doneErr` with no output file; but the run returns only
`None` (failures are silently discarded rather than aggregated into a
returned Summary). With page 3 of 5 corrupt this yields files 00000, 00001,
00002 and 00004 and no 00003. -/
theorem c3_failure_isolated_but_unreported (img : TiffImage) (dir : String)
    (tr : List Label) (s : PipelineState)
    (hr : Reach (some img) dir (initState []) tr s)
    (hfin : s.main = MainPC.finished) :
    resultOf s = some PyReturn.noneValue ∧
    s.jobs.length = img.n_frames ∧
    (∀ pc ∈ s.jobs, pc.terminal = true) ∧
    (∀ (j : Nat) (p : PageFrame), img.pages[j]? = some (some p) →
      s.jobs[j]? = some JobPC.doneOk ∧
      fsLookup s.files (jpegFilename dir j) = some (jpegEncode (convertRGB p))) ∧
    (∀ j : Nat, img.pages[j]? = some none →
      s.jobs[j]? = some JobPC.doneErr ∧
      fsLookup s.files (jpegFilename dir j) = none) := by
  have hI := sysInv_reach hr (sysInv_init (some img) dir [])
  obtain ⟨hlen, hclass⟩ := finished_classify hI hfin
  have hM := hI.main_inv
  unfold MainInv at hM
  rw [hfin] at hM
  obtain ⟨img', hin', ho, hd, hlen2, hpn, hterm⟩ := hM
  refine ⟨by unfold resultOf; rw [hfin], hlen, hterm, ?_, ?_⟩
  · intro j p hp
    have hjN : j < img.n_frames := by
      obtain ⟨hlt, -⟩ := List.getElem?_eq_some_iff.mp hp
      exact hlt
    have hok := (hclass j hjN).1 p hp
    exact ⟨hok, filesLog_lookup_doneOk hI.files_log rfl hok hp⟩
  · intro j hp
    have hjN : j < img.n_frames := by
      obtain ⟨hlt, -⟩ := List.getElem?_eq_some_iff.mp hp
      exact hlt
    have herr := (hclass j hjN).2 hp
    refine ⟨herr, ?_⟩
    have hne : ¬ s.jobs[j]? = some JobPC.doneOk := by
      rw [herr]
      exact fun hc => JobPC.noConfusion (Option.some.inj hc)
    rw [filesLog_lookup_notOk hI.files_log hne]
    rfl

theorem c3_failure_isolated_but_unreported_witness :
    Reach (some img5bad) "out" (initState []) tr5bad s5badFin ∧
    s5badFin.main = MainPC.finished ∧
    (resultOf s5badFin = some PyReturn.noneValue ∧
     s5badFin.jobs.length = img5bad.n_frames ∧
     (∀ pc ∈ s5badFin.jobs, pc.terminal = true) ∧
     (∀ (j : Nat) (p : PageFrame), img5bad.pages[j]? = some (some p) →
       s5badFin.jobs[j]? = some JobPC.doneOk ∧
       fsLookup s5badFin.files (jpegFilename "out" j)
         = some (jpegEncode (convertRGB p))) ∧
     (∀ j : Nat, img5bad.pages[j]? = some none →
       s5badFin.jobs[j]? = some JobPC.doneErr ∧
       fsLookup s5badFin.files (jpegFilename "out" j) = none)) :=
  ⟨reach_tr5bad, s5badFin_main,
    c3_failure_isolated_but_unreported img5bad "out" tr5bad s5badFin
      reach_tr5bad s5badFin_main⟩

lemma fsLookup_mem_isSome {fs : List (String × List Nat)} {n : String} :
    n ∈ fs.map Prod.fst ↔ ∃ c, fsLookup fs n = some c := by
  induction fs with
  | nil => simp [fsLookup]
  | cons e fs ih =>
      simp only [List.map_cons, List.mem_cons, fsLookup]
      by_cases he : e.1 = n
      · rw [if_pos he]
        constructor
        · intro _
          exact ⟨e.2, rfl⟩
        · intro _
          exact Or.inl he.symm
      · rw [if_neg he]
        constructor
        · intro h
          rcases h with h | h
          · exact absurd h.symm he
          · exact ih.mp h
        · intro h
          exact Or.inr (ih.mpr h)

/-- C8: convert is deterministic per page. Run the pipeline once on an empty
output directory and a second time on the directory the first run left
behind, with arbitrary (possibly different) interleavings; then every name
looks up to the same content after the second run as after the first (the
second run overwrote each file with identical bytes), the set of file names
is unchanged (no duplicate or stray files accumulate), and each decodable
page's file holds exactly the deterministic encoding of that page. -/
theorem c8_rerun_identical (img : TiffImage) (dir : String)
    (trA trB : List Label) (s1 s2 : PipelineState)
    (h1 : Reach (some img) dir (initState []) trA s1)
    (hf1 : s1.main = MainPC.finished)
    (h2 : Reach (some img) dir (initState s1.files) trB s2)
    (hf2 : s2.main = MainPC.finished) :
    (∀ n : String, fsLookup s2.files n = fsLookup s1.files n) ∧
    (s2.files.map Prod.fst).toFinset = (s1.files.map Prod.fst).toFinset ∧
    (∀ (j : Nat) (p : PageFrame), img.pages[j]? = some (some p) →
      fsLookup s1.files (jpegFilename dir j) = some (jpegEncode (convertRGB p))) := by
  have hI1 := sysInv_reach h1 (sysInv_init (some img) dir [])
  have hI2 := sysInv_reach h2 (sysInv_init (some img) dir s1.files)
  obtain ⟨hlen1, hclass1⟩ := finished_classify hI1 hf1
  obtain ⟨hlen2, hclass2⟩ := finished_classify hI2 hf2
  have hlook : ∀ n : String, fsLookup s2.files n = fsLookup s1.files n := by
    intro n
    obtain ⟨l2, hfl2, hmem2, hcount2⟩ := hI2.files_log
    by_cases hn : n ∈ l2.map Prod.fst
    · obtain ⟨e, hel, hfst⟩ := List.mem_map.mp hn
      obtain ⟨k, p, img', hin', hp, hk, hee⟩ := hmem2 e hel
      rw [← Option.some.inj hin'] at hp
      have hnk : n = jpegFilename dir k := by rw [← hfst, hee]
      subst hnk
      have hkN : k < img.n_frames := by
        obtain ⟨hlt, -⟩ := List.getElem?_eq_some_iff.mp hp
        exact hlt
      have hok1 : s1.jobs[k]? = some JobPC.doneOk := (hclass1 k hkN).1 p hp
      rw [filesLog_lookup_doneOk hI2.files_log rfl hk hp]
      rw [filesLog_lookup_doneOk hI1.files_log rfl hok1 hp]
    · rw [hfl2, fsLookup_append_not_mem hn]
  refine ⟨hlook, ?_, ?_⟩
  · have hmemiff : ∀ x : String,
        x ∈ s2.files.map Prod.fst ↔ x ∈ s1.files.map Prod.fst := by
      intro x
      rw [fsLookup_mem_isSome, fsLookup_mem_isSome, hlook x]
    ext x
    simp only [List.mem_toFinset]
    exact hmemiff x
  · intro j p hp
    have hjN : j < img.n_frames := by
      obtain ⟨hlt, -⟩ := List.getElem?_eq_some_iff.mp hp
      exact hlt
    have hok1 : s1.jobs[j]? = some JobPC.doneOk := (hclass1 j hjN).1 p hp
    exact filesLog_lookup_doneOk hI1.files_log rfl hok1 hp

theorem c8_rerun_identical_witness :
    Reach (some img1) "out" (initState []) tr1 s1fin ∧
    Reach (some img1) "out" (initState s1fin.files) tr1 s1fin2 ∧
    ((∀ n : String, fsLookup s1fin2.files n = fsLookup s1fin.files n) ∧
     (s1fin2.files.map Prod.fst).toFinset = (s1fin.files.map Prod.fst).toFinset ∧
     (∀ (j : Nat) (p : PageFrame), img1.pages[j]? = some (some p) →
       fsLookup s1fin.files (jpegFilename "out" j)
         = some (jpegEncode (convertRGB p)))) :=
  ⟨reach_tr1, reach_tr1_again,
    c8_rerun_identical img1 "out" tr1 tr1 s1fin s1fin2 reach_tr1 s1fin_main
      reach_tr1_again s1fin2_main⟩
